import Mathlib

/-!
Verification of the newspaper-extraction pipeline (`extract_newspapers.py`).

Strings are modelled as `List Char`.  The Python regular-expression
operations used by the source are embedded character by character:

* `re.split(r'\n\s*\n', text)`  — `reSplitNN`
* `header.split('/')`           — `charSplit '/'`
* `re.split(r'[/\s]+', header)` — `runSplit`
* `re.search(r'(\d+) 年', part)` (and 月 / 日) — `numUnitSearch`
* `re.search(r'第 (\d+) 版', part)` — `volSearch`
* `str.strip()` — `strip`
* `os.path.basename` — `basename`

Whitespace (`\s`) and digits (`\d`) are modelled over their ASCII ranges,
which is what the data processed by the program contains.
-/

/-- Python's whitespace class `\s` over the ASCII range. -/
def pySpace (c : Char) : Bool :=
  c = ' ' || c = '\t' || c = '\n' || c = '\r' || c = '\x0b' || c = '\x0c'

/-- A list of characters is blank when all of its characters are whitespace. -/
def allSpace (l : List Char) : Bool :=
  l.all pySpace

/-- Removes leading whitespace, as the left half of Python's `str.strip()`. -/
def ldrop (l : List Char) : List Char :=
  l.dropWhile pySpace

/-- Removes trailing whitespace, as the right half of Python's `str.strip()`. -/
def rdrop (l : List Char) : List Char :=
  (l.reverse.dropWhile pySpace).reverse

/-- Python's `str.strip()`: removes leading and trailing whitespace. -/
def strip (l : List Char) : List Char :=
  rdrop (ldrop l)

/-- Suffix strictly after the last occurrence of `t`, or `none` when `t`
does not occur.  Used for `os.path.basename` (with `/`) and for the greedy
semantics of `\n\s*\n` (with `'\n'`). -/
def afterLastC (t : Char) : List Char → Option (List Char)
  | [] => none
  | c :: cs =>
    match afterLastC t cs with
    | some r => some r
    | none => if c = t then some cs else none

/-- Python's `os.path.basename`: the part of the path after the last slash. -/
def basename (p : List Char) : List Char :=
  (afterLastC '/' p).getD p

/-- Embeds an attempted match of `\n\s*\n` at the head of the list, as used
by `re.split(r'\n\s*\n', text)`: the match begins with a literal newline;
the greedy `\s*` then backtracks so that the match ends at the LAST newline
of the maximal whitespace run that follows.  Returns the remainder of the
text after the match (the part of the run after that last newline, followed
by the text after the run), or `none` when no match starts here. -/
def sepMatch : List Char → Option (List Char)
  | [] => none
  | c :: rest =>
    if c = '\n' then
      (afterLastC '\n' (rest.takeWhile pySpace)).map
        (fun tail => tail ++ rest.dropWhile pySpace)
    else none

/-- Fueled worker for `re.split(r'\n\s*\n', text)`: scans left to right,
emitting a piece at every match and continuing after it.  The fuel only
serves structural recursion; `fuel = length of the text` always suffices. -/
def reSplitF : Nat → List Char → List Char → List (List Char)
  | 0, acc, l => [acc.reverse ++ l]
  | _ + 1, acc, [] => [acc.reverse]
  | fuel + 1, acc, c :: rest =>
    match sepMatch (c :: rest) with
    | some rem => acc.reverse :: reSplitF fuel [] rem
    | none => reSplitF fuel (c :: acc) rest

/-- Embeds `re.split(r'\n\s*\n', text)`. -/
def reSplitNN (l : List Char) : List (List Char) :=
  reSplitF l.length [] l

/-- Embeds line 23 of the source:
`[p.strip() for p in re.split(r'\n\s*\n', text) if p.strip()]`. -/
def pyParagraphs (text : List Char) : List (List Char) :=
  ((reSplitNN text).map strip).filter (fun p => p ≠ [])

/-- Python's `str.split(sep)` for a single-character separator: splits at
every occurrence, keeping empty pieces. -/
def charSplit (sep : Char) : List Char → List (List Char)
  | [] => [[]]
  | c :: rest =>
    if c = sep then [] :: charSplit sep rest
    else
      match charSplit sep rest with
      | [] => [[c]]
      | h :: t => (c :: h) :: t

/-- A character matched by the class `[/\s]` of `re.split(r'[/\s]+', header)`. -/
def slashSpace (c : Char) : Bool :=
  c = '/' || pySpace c

/-- Fueled worker for `re.split(r'[/\s]+', header)`: pieces are the maximal
runs of characters outside the class, with an empty piece at an edge when
the text starts or ends with a separator run. -/
def runSplitF : Nat → List Char → List (List Char)
  | 0, l => [l]
  | _ + 1, [] => [[]]
  | fuel + 1, c :: rest =>
    if slashSpace c then [] :: runSplitF fuel (rest.dropWhile slashSpace)
    else
      match runSplitF fuel rest with
      | [] => [[c]]
      | h :: t => (c :: h) :: t

/-- Embeds `re.split(r'[/\s]+', header)`. -/
def runSplit (l : List Char) : List (List Char) :=
  runSplitF l.length l

/-- Embeds lines 42-46 of the source: split the header by `/` when it
contains a slash, otherwise by `[/\s]+` runs; strip every part and keep the
non-empty ones. -/
def headerParts (header : List Char) : List (List Char) :=
  if header.contains '/' then
    ((charSplit '/' header).map strip).filter (fun p => p ≠ [])
  else
    ((runSplit header).map strip).filter (fun p => p ≠ [])

/-- Embeds `re.search(r'(\d+) <unit>', part)` for a unit character (年, 月
or 日), returning the captured digit run of the leftmost match.  At each
candidate start the engine takes the maximal digit run beginning there;
backtracking inside the run cannot help (the character after a shorter run
is a digit, not a space), so the run is followed by a space and the unit or
the start is advanced by one character. -/
def numUnitSearch (unit : Char) : List Char → Option (List Char)
  | [] => none
  | c :: rest =>
    if c.isDigit then
      let ds := (c :: rest).takeWhile Char.isDigit
      match (c :: rest).drop ds.length with
      | a :: b :: _ =>
        if a = ' ' && b = unit then some ds else numUnitSearch unit rest
      | _ => numUnitSearch unit rest
    else numUnitSearch unit rest

/-- Embeds `re.search(r'第 (\d+) 版', part)`: the leftmost occurrence of
`第`, a space, a digit run, a space and `版`, returning the digit run. -/
def volSearch : List Char → Option (List Char)
  | [] => none
  | c :: rest =>
    if c = '第' then
      match rest with
      | a :: r2 =>
        if a = ' ' then
          let ds := r2.takeWhile Char.isDigit
          match ds, r2.drop ds.length with
          | _ :: _, x :: y :: _ =>
            if x = ' ' && y = '版' then some ds else volSearch rest
          | _, _ => volSearch rest
        else volSearch rest
      | [] => none
    else volSearch rest

/-- Python's `int` on a string of decimal digits. -/
def digitsToNat (ds : List Char) : Nat :=
  ds.foldl (fun n c => n * 10 + (c.toNat - 48)) 0

/-- State of the date/volume scan over the header parts:
`(year, month, day, volume)`. -/
abbrev ScanState := Option Nat × Option Nat × Option Nat × Option (List Char)

/-- Embeds one iteration of the loop at lines 55-74 of the source: each of
the four patterns is searched in the part, and on a match the corresponding
field is overwritten. -/
def scanPart (st : ScanState) (part : List Char) : ScanState :=
  let y := match numUnitSearch '年' part with
    | some ds => some (digitsToNat ds)
    | none => st.1
  let m := match numUnitSearch '月' part with
    | some ds => some (digitsToNat ds)
    | none => st.2.1
  let d := match numUnitSearch '日' part with
    | some ds => some (digitsToNat ds)
    | none => st.2.2.1
  let v := match volSearch part with
    | some ds => some ds
    | none => st.2.2.2
  (y, m, d, v)

/-- Embeds the whole loop at lines 55-74 of the source. -/
def scanParts (parts : List (List Char)) : ScanState :=
  parts.foldl scanPart (none, none, none, none)

/-- The record built by `extract_newspaper_info` (the Python dictionary
`info`).  Every field is an `Option` because the dictionary initializes all
of them to `None`; absence (`none`) is distinguishable from an empty
string (`some []`). -/
structure RawInfo where
  filename : Option (List Char)
  publisher : Option (List Char)
  year : Option Nat
  month : Option Nat
  day : Option Nat
  volume : Option (List Char)
  title : Option (List Char)
  text : Option (List Char)
  deriving Repr, DecidableEq

/-- Joins a list of strings with a single newline, as `'\n'.join(...)`. -/
def joinNL : List (List Char) → List Char
  | [] => []
  | [l] => l
  | l :: m :: rest => l ++ '\n' :: joinNL (m :: rest)

/-- Embeds `extract_newspaper_info` (lines 9-87 of the source) applied to
the text produced by the Converter for `pdf_path`.  The Converter
(`pdfminer.extract_text`) is an external collaborator, so its output is a
parameter. -/
def extract_newspaper_info (pdf_path : List Char) (text : List Char) : RawInfo :=
  let paragraphs := pyParagraphs text
  let info0 : RawInfo :=
    { filename := some (basename pdf_path)
      publisher := none, year := none, month := none, day := none
      volume := none, title := none, text := some text }
  match paragraphs with
  | [] => info0
  | p0 :: ptail =>
    let header := strip p0
    let hps := headerParts header
    let info1 :=
      match hps with
      | [] => info0
      | h0 :: _ =>
        let st := scanParts hps
        { info0 with publisher := some h0
                     year := st.1, month := st.2.1, day := st.2.2.1
                     volume := st.2.2.2 }
    let info2 :=
      match ptail with
      | [] => info1
      | p1 :: _ => { info1 with title := some (strip p1) }
    match ptail with
    | _ :: _ :: _ => { info2 with text := some (joinNL (paragraphs.drop 2)) }
    | _ => info2

/-- Splits a text into its lines at every newline character (keeping empty
lines), the line structure underlying the spec's notion of a blank line. -/
def linesOf : List Char → List (List Char) :=
  charSplit '\n'

/-- Splits a list of lines at every blank line, the blank lines acting as
separators and being dropped; consecutive blank lines leave empty groups. -/
def splitOnBlank : List (List Char) → List (List (List Char))
  | [] => [[]]
  | l :: ls =>
    if allSpace l then [] :: splitOnBlank ls
    else
      match splitOnBlank ls with
      | [] => [[l]]
      | g :: gs => (l :: g) :: gs

/-- Follows the spec's words for the paragraph split: "Split the full text
into paragraphs wherever a blank line (one or more blank lines) occurs,
trimming surrounding whitespace from each paragraph, and discarding empty
paragraphs."  A paragraph is a maximal run of non-blank lines, joined by
newlines. -/
def specParagraphs (text : List Char) : List (List Char) :=
  ((splitOnBlank (linesOf text)).map (fun g => strip (joinNL g))).filter
    (fun p => p ≠ [])

/-- Embeds the batch loop of `main` (lines 115-127 of the source): one
record appended per file whose conversion succeeds, one
`(filename, error)` pair appended per file whose conversion throws.  The
Converter outcome for each file is the parameter `convert`; `dir` is the
input directory joined to the file name for `extract_newspaper_info`. -/
def processFiles (dir : List Char)
    (convert : List Char → Except (List Char) (List Char))
    (files : List (List Char)) :
    List RawInfo × List (List Char × List Char) :=
  files.foldl
    (fun st fn =>
      match convert fn with
      | .ok text =>
        (st.1 ++ [extract_newspaper_info (dir ++ '/' :: fn) text], st.2)
      | .error e => (st.1, st.2 ++ [(fn, e)]))
    ([], [])

/-- Minimum of the present values of an optional column, as
`df[col].min()` (pandas skips the missing values). -/
def colMin (xs : List (Option Nat)) : Option Nat :=
  xs.foldl
    (fun acc x =>
      match acc, x with
      | none, v => v
      | some m, none => some m
      | some m, some v => some (min m v))
    none

/-- Maximum of the present values of an optional column, as
`df[col].max()`. -/
def colMax (xs : List (Option Nat)) : Option Nat :=
  xs.foldl
    (fun acc x =>
      match acc, x with
      | none, v => v
      | some m, none => some m
      | some m, some v => some (max m v))
    none

/-- Embeds line 146 of the source: the two endpoints of the printed
`Date range: ymin-mmin to ymax-mmax`, where each of the four numbers is the
column-wise extremum of the `year` or `month` column taken independently. -/
def summaryDateRange (data : List RawInfo) :
    (Option Nat × Option Nat) × (Option Nat × Option Nat) :=
  ((colMin (data.map (fun r => r.year)), colMin (data.map (fun r => r.month))),
   (colMax (data.map (fun r => r.year)), colMax (data.map (fun r => r.month))))

/-- Ordering of year-month pairs as pairs, year first, as in the spec's
"min/max of the year-month pairs". -/
def pairLE (a b : Nat × Nat) : Bool :=
  a.1 < b.1 || (a.1 = b.1 && a.2 ≤ b.2)

/-- Minimum of a list of year-month pairs in the pair order. -/
def pairMin : List (Nat × Nat) → Option (Nat × Nat)
  | [] => none
  | p :: ps =>
    match pairMin ps with
    | none => some p
    | some q => some (if pairLE p q then p else q)

/-- The year-month pairs of the successfully dated records (both the year
and the month were extracted). -/
def datedPairs (data : List RawInfo) : List (Nat × Nat) :=
  data.filterMap
    (fun r =>
      match r.year, r.month with
      | some y, some m => some (y, m)
      | _, _ => none)

/-- Modelled from the spec: Strategy A's header pattern
`<publisher>/<year>年<month>月<day>日/第<volume>版` for a single line — the
line-scan strategy is described in the spec but its code is not under
`src/`.  The line must consist of three slash-separated parts: the
publisher, a date part `<digits>年<digits>月<digits>日` with the month and
the day being 1-2 digit runs, and a volume part `第<digits>版`. -/
def strategyAMatch (line : List Char) :
    Option (List Char × Nat × Nat × Nat × List Char) :=
  match charSplit '/' line with
  | [pub, datePart, volPart] =>
    let y := datePart.takeWhile Char.isDigit
    let r1 := datePart.drop y.length
    match r1 with
    | '年' :: r2 =>
      let m := r2.takeWhile Char.isDigit
      let r3 := r2.drop m.length
      match r3 with
      | '月' :: r4 =>
        let d := r4.takeWhile Char.isDigit
        let r5 := r4.drop d.length
        match r5 with
        | ['日'] =>
          match volPart with
          | '第' :: v1 =>
            let v := v1.takeWhile Char.isDigit
            if y ≠ [] && (1 ≤ m.length && m.length ≤ 2) &&
                (1 ≤ d.length && d.length ≤ 2) && v ≠ [] &&
                v1.drop v.length = ['版'] then
              some (pub, digitsToNat y, digitsToNat m, digitsToNat d, v)
            else none
          | _ => none
        | _ => none
      | _ => none
    | _ => none
  | _ => none

/-- Modelled from the spec: Strategy A scans only the first 10 lines of the
text, populates the five header fields from the captured groups of the
first matching line and stops scanning; when no line among the first 10
matches, the five fields remain absent. -/
def strategyA (text : List Char) :
    Option (List Char) × Option Nat × Option Nat × Option Nat ×
      Option (List Char) :=
  go ((linesOf text).take 10)
where
  go : List (List Char) →
      Option (List Char) × Option Nat × Option Nat × Option Nat ×
        Option (List Char)
    | [] => (none, none, none, none, none)
    | l :: ls =>
      match strategyAMatch l with
      | some (p, y, m, d, v) => (some p, some y, some m, some d, some v)
      | none => go ls


/-- The sub-match that determines a date field: the match found in the LAST
header part containing one (the loop overwrites earlier matches), and within
that part the leftmost occurrence (the search semantics of `numUnitSearch`). -/
def lastDateScan (unit : Char) (parts : List (List Char)) : Option (List Char) :=
  parts.reverse.findSome? (numUnitSearch unit)

/-- The volume sub-match that survives the loop: the one of the last
matching part. -/
def lastVolScan (parts : List (List Char)) : Option (List Char) :=
  parts.reverse.findSome? volSearch

/-- The header parts a text is scanned with: those of its stripped first
paragraph, or none when the text has no paragraph. -/
def hpsOf (text : List Char) : List (List Char) :=
  match pyParagraphs text with
  | [] => []
  | p0 :: _ => headerParts (strip p0)

/-- The title the Parser produces: the stripped second paragraph. -/
def titleOf (text : List Char) : Option (List Char) :=
  match pyParagraphs text with
  | _ :: p1 :: _ => some (strip p1)
  | _ => none

/-- The body the Parser produces: the newline-join of the paragraphs from
the third onward when there are at least three, the raw text otherwise. -/
def bodyOf (text : List Char) : List Char :=
  match pyParagraphs text with
  | _ :: _ :: p2 :: rest => joinNL (p2 :: rest)
  | _ => text
/-! Lemmas about whitespace, `strip` and `takeWhile` / `dropWhile`. -/

theorem allSpace_iff {l : List Char} : allSpace l = true ↔ ∀ c ∈ l, pySpace c = true := by
  simp [allSpace, List.all_eq_true]

theorem allSpace_append {a b : List Char} :
    allSpace (a ++ b) = (allSpace a && allSpace b) := by
  simp [allSpace, List.all_append]

theorem takeWhile_append_of_all {p : Char → Bool} {a : List Char} (b : List Char)
    (h : ∀ c ∈ a, p c = true) :
    (a ++ b).takeWhile p = a ++ b.takeWhile p := by
  induction a with
  | nil => simp
  | cons c a ih =>
    have hc : p c = true := h c (by simp)
    simp only [List.cons_append, List.takeWhile_cons, hc, if_true]
    rw [ih fun x hx => h x (by simp [hx])]

theorem dropWhile_append_of_all {p : Char → Bool} {a : List Char} (b : List Char)
    (h : ∀ c ∈ a, p c = true) :
    (a ++ b).dropWhile p = b.dropWhile p := by
  induction a with
  | nil => simp
  | cons c a ih =>
    have hc : p c = true := h c (by simp)
    simp only [List.cons_append, List.dropWhile_cons, hc, if_true]
    exact ih fun x hx => h x (by simp [hx])

theorem takeWhile_append_of_not_all {p : Char → Bool} {a : List Char} (b : List Char)
    (h : ¬ ∀ c ∈ a, p c = true) :
    (a ++ b).takeWhile p = a.takeWhile p := by
  induction a with
  | nil => exact absurd (by intro c hc; cases hc) h
  | cons c a ih =>
    by_cases hc : p c = true
    · simp only [List.cons_append, List.takeWhile_cons, hc, if_true]
      have : ¬ ∀ x ∈ a, p x = true := fun hall => h (by
        intro x hx
        rcases List.mem_cons.1 hx with rfl | hx
        · exact hc
        · exact hall x hx)
      rw [ih this]
    · have hc' : p c = false := by simpa using hc
      simp only [List.cons_append, List.takeWhile_cons, hc']
      simp

theorem dropWhile_append_of_not_all {p : Char → Bool} {a : List Char} (b : List Char)
    (h : ¬ ∀ c ∈ a, p c = true) :
    (a ++ b).dropWhile p = a.dropWhile p ++ b := by
  induction a with
  | nil => exact absurd (by intro c hc; cases hc) h
  | cons c a ih =>
    by_cases hc : p c = true
    · simp only [List.cons_append, List.dropWhile_cons, hc, if_true]
      have : ¬ ∀ x ∈ a, p x = true := fun hall => h (by
        intro x hx
        rcases List.mem_cons.1 hx with rfl | hx
        · exact hc
        · exact hall x hx)
      exact ih this
    · simp [List.dropWhile_cons, hc]

theorem not_allSpace_iff {l : List Char} :
    allSpace l = false ↔ ¬ ∀ c ∈ l, pySpace c = true := by
  constructor
  · intro h hall
    rw [allSpace_iff.2 hall] at h
    cases h
  · intro h
    cases hl : allSpace l with
    | false => rfl
    | true => exact absurd (allSpace_iff.1 hl) h

theorem ldrop_append_of_not_all {a : List Char} (b : List Char)
    (ha : allSpace a = false) : ldrop (a ++ b) = ldrop a ++ b :=
  dropWhile_append_of_not_all b (not_allSpace_iff.1 ha)

theorem ldrop_append_of_all {a : List Char} (b : List Char)
    (ha : allSpace a = true) : ldrop (a ++ b) = ldrop b :=
  dropWhile_append_of_all b (allSpace_iff.1 ha)

theorem allSpace_reverse {l : List Char} : allSpace l.reverse = allSpace l := by
  simp [allSpace, List.all_reverse]

theorem rdrop_append_of_not_all (a : List Char) {b : List Char}
    (hb : allSpace b = false) : rdrop (a ++ b) = a ++ rdrop b := by
  unfold rdrop
  rw [List.reverse_append]
  rw [dropWhile_append_of_not_all a.reverse
    (not_allSpace_iff.1 (by rw [allSpace_reverse]; exact hb))]
  simp

theorem rdrop_append_of_all (a : List Char) {b : List Char}
    (hb : allSpace b = true) : rdrop (a ++ b) = rdrop a := by
  unfold rdrop
  rw [List.reverse_append]
  rw [dropWhile_append_of_all a.reverse
    (by intro c hc; exact allSpace_iff.1 (by rw [allSpace_reverse]; exact hb) c hc)]

theorem ldrop_all {l : List Char} (h : allSpace l = true) : ldrop l = [] := by
  unfold ldrop
  rw [List.dropWhile_eq_nil_iff]
  exact allSpace_iff.1 h

theorem rdrop_all {l : List Char} (h : allSpace l = true) : rdrop l = [] := by
  unfold rdrop
  rw [List.dropWhile_eq_nil_iff.2 (allSpace_iff.1 (by rw [allSpace_reverse]; exact h))]
  rfl

theorem strip_all {l : List Char} (h : allSpace l = true) : strip l = [] := by
  unfold strip
  rw [ldrop_all h, rdrop]
  rfl

theorem allSpace_ldrop_of_not {l : List Char} (h : allSpace l = false) :
    allSpace (ldrop l) = false := by
  rw [not_allSpace_iff]
  intro hall
  apply not_allSpace_iff.1 h
  intro c hc
  have hsplit : l = l.takeWhile pySpace ++ ldrop l :=
    (List.takeWhile_append_dropWhile pySpace l).symm
  rw [hsplit] at hc
  rcases List.mem_append.1 hc with h1 | h1
  · exact List.mem_takeWhile_imp h1
  · exact hall c h1

theorem strip_ne_nil_of_not {l : List Char} (h : allSpace l = false) :
    strip l ≠ [] := by
  unfold strip
  have h1 : allSpace (ldrop l) = false := allSpace_ldrop_of_not h
  intro hcon
  have h2 : (ldrop l).reverse.dropWhile pySpace = [] := by
    have := congrArg List.reverse hcon
    rw [rdrop] at this
    simpa using this
  rw [List.dropWhile_eq_nil_iff] at h2
  exact not_allSpace_iff.1 h1 (by
    intro c hc
    exact h2 c (by simpa using hc))

theorem strip_append_all_left {a : List Char} (b : List Char)
    (ha : allSpace a = true) : strip (a ++ b) = strip b := by
  unfold strip
  rw [ldrop_append_of_all b ha]

theorem strip_append_all_right (a : List Char) {b : List Char}
    (hb : allSpace b = true) : strip (a ++ b) = strip a := by
  cases hA : allSpace a with
  | true =>
    rw [strip_all hA, strip_all (by rw [allSpace_append, hA, hb]; rfl)]
  | false =>
    unfold strip
    rw [ldrop_append_of_not_all b hA, rdrop_append_of_all (ldrop a) hb]

theorem strip_mid {L h : List Char} (hL : allSpace L = false)
    (hh : allSpace h = false) :
    strip (L ++ '\n' :: h) = ldrop L ++ '\n' :: rdrop h := by
  unfold strip
  rw [ldrop_append_of_not_all ('\n' :: h) hL]
  have : ldrop L ++ '\n' :: h = (ldrop L ++ ['\n']) ++ h := by simp
  rw [this, rdrop_append_of_not_all (ldrop L ++ ['\n']) hh]
  simp

theorem rdrop_eq_takeWhile_append_strip {l : List Char}
    (h : allSpace l = false) :
    rdrop l = l.takeWhile pySpace ++ strip l := by
  have hsplit : l = l.takeWhile pySpace ++ ldrop l :=
    (List.takeWhile_append_dropWhile pySpace l).symm
  calc rdrop l = rdrop (l.takeWhile pySpace ++ ldrop l) := by rw [← hsplit]
    _ = l.takeWhile pySpace ++ rdrop (ldrop l) :=
        rdrop_append_of_not_all _ (allSpace_ldrop_of_not h)
    _ = l.takeWhile pySpace ++ strip l := rfl

theorem takeWhile_space_of_front {N : List Char} (z : List Char)
    (hN : allSpace N = false) :
    (N ++ z).takeWhile pySpace = N.takeWhile pySpace :=
  takeWhile_append_of_not_all z (not_allSpace_iff.1 hN)

/-! Lemmas about `afterLastC`, `charSplit`, `joinNL` and `splitOnBlank`. -/

theorem afterLastC_none_iff {t : Char} {l : List Char} :
    afterLastC t l = none ↔ t ∉ l := by
  induction l with
  | nil => simp [afterLastC]
  | cons c cs ih =>
    simp only [afterLastC]
    cases h : afterLastC t cs with
    | some r =>
      have htcs : t ∈ cs := by
        by_contra hn
        rw [ih.2 hn] at h
        cases h
      simp only [List.mem_cons]
      constructor
      · intro hcon; cases hcon
      · intro hnot; exact absurd (Or.inr htcs) hnot
    | none =>
      have hnot : t ∉ cs := ih.1 h
      by_cases hc : c = t
      · subst hc
        simp
      · have htc : ¬ t = c := fun ht => hc ht.symm
        simp [hc, hnot, htc]

theorem afterLastC_some {t : Char} {l r : List Char}
    (h : afterLastC t l = some r) : ∃ p, l = p ++ t :: r := by
  induction l generalizing r with
  | nil => cases h
  | cons c cs ih =>
    simp only [afterLastC] at h
    cases h2 : afterLastC t cs with
    | some r2 =>
      rw [h2] at h
      cases h
      rcases ih h2 with ⟨p, hp⟩
      exact ⟨c :: p, by simp [hp]⟩
    | none =>
      rw [h2] at h
      by_cases hc : c = t
      · subst hc
        simp only [if_pos rfl] at h
        cases h
        exact ⟨[], rfl⟩
      · simp [hc] at h

theorem afterLastC_append_none {t : Char} (a : List Char) {b : List Char}
    (hb : t ∉ b) :
    afterLastC t (a ++ b) = (afterLastC t a).map (fun r => r ++ b) := by
  induction a with
  | nil => simp [afterLastC_none_iff.2 hb, afterLastC]
  | cons c a ih =>
    simp only [List.cons_append, afterLastC, List.append_eq]
    rw [ih]
    cases h : afterLastC t a with
    | some r => simp
    | none =>
      by_cases hc : c = t
      · simp [hc]
      · simp [hc]

theorem afterLastC_append_self (t : Char) (a : List Char) :
    afterLastC t (a ++ [t]) = some [] := by
  induction a with
  | nil => simp [afterLastC]
  | cons c a ih => simp [afterLastC, ih]

theorem charSplit_ne_nil (sep : Char) (l : List Char) : charSplit sep l ≠ [] := by
  cases l with
  | nil => simp [charSplit]
  | cons c rest =>
    simp only [charSplit]
    by_cases hc : c = sep
    · simp [hc]
    · simp only [hc, if_false]
      cases charSplit sep rest with
      | nil => simp
      | cons h t => simp

theorem joinNL_charSplit (l : List Char) : joinNL (charSplit '\n' l) = l := by
  induction l with
  | nil => simp [charSplit, joinNL]
  | cons c rest ih =>
    by_cases hc : c = '\n'
    · subst hc
      simp only [charSplit, if_pos rfl]
      cases h : charSplit '\n' rest with
      | nil => exact absurd h (charSplit_ne_nil _ _)
      | cons g gs =>
        rw [h] at ih
        simp [joinNL, ih]
    · simp only [charSplit, hc, if_false]
      cases h : charSplit '\n' rest with
      | nil => exact absurd h (charSplit_ne_nil _ _)
      | cons g gs =>
        rw [h] at ih
        cases gs with
        | nil => simpa [joinNL] using congrArg (fun z => c :: z) ih
        | cons g2 gs2 => simpa [joinNL] using congrArg (fun z => c :: z) ih

theorem not_mem_of_mem_charSplit {sep : Char} {l : List Char} :
    ∀ {L : List Char}, L ∈ charSplit sep l → sep ∉ L := by
  induction l with
  | nil =>
    intro L h
    simp only [charSplit, List.mem_singleton] at h
    subst h
    simp
  | cons c rest ih =>
    intro L h
    by_cases hc : c = sep
    · simp [charSplit, hc] at h
      rcases h with h1 | h2
      · subst h1
        simp
      · exact ih h2
    · simp only [charSplit, hc, if_false] at h
      generalize h3 : charSplit sep rest = cs at h
      cases cs with
      | nil => exact absurd h3 (charSplit_ne_nil _ _)
      | cons g gs =>
        rcases List.mem_cons.1 h with rfl | h2
        · intro hmem
          rcases List.mem_cons.1 hmem with heq | hmem2
          · exact hc heq.symm
          · exact ih (h3 ▸ List.mem_cons_self g gs) hmem2
        · exact ih (h3 ▸ List.mem_cons_of_mem g h2)

theorem linesOf_no_nl {l L : List Char} (h : L ∈ linesOf l) : '\n' ∉ L :=
  not_mem_of_mem_charSplit h

theorem joinNL_linesOf (l : List Char) : joinNL (linesOf l) = l :=
  joinNL_charSplit l

theorem joinNL_cons {L : List Char} {ls : List (List Char)} (h : ls ≠ []) :
    joinNL (L :: ls) = L ++ '\n' :: joinNL ls := by
  cases ls with
  | nil => exact absurd rfl h
  | cons M rest => rfl

theorem joinNL_append {xs ys : List (List Char)} (hx : xs ≠ []) (hy : ys ≠ []) :
    joinNL (xs ++ ys) = joinNL xs ++ '\n' :: joinNL ys := by
  induction xs with
  | nil => exact absurd rfl hx
  | cons L xs ih =>
    cases xs with
    | nil =>
      simp only [List.singleton_append]
      rw [joinNL_cons hy]
      rfl
    | cons M xs2 =>
      rw [List.cons_append, joinNL_cons (by simp), joinNL_cons (by simp)]
      rw [ih (by simp)]
      simp

theorem allSpace_joinNL {ls : List (List Char)}
    (h : ∀ l ∈ ls, allSpace l = true) : allSpace (joinNL ls) = true := by
  induction ls with
  | nil => rfl
  | cons L ls ih =>
    cases ls with
    | nil => exact h L (by simp)
    | cons M rest =>
      rw [joinNL_cons (by simp), allSpace_append]
      have h1 := h L (by simp)
      have h2 : allSpace (joinNL (M :: rest)) = true :=
        ih (fun l hl => h l (by simp [hl]))
      have h3 : allSpace ('\n' :: joinNL (M :: rest)) =
          (pySpace '\n' && allSpace (joinNL (M :: rest))) := rfl
      rw [h1, h3, h2]
      decide

theorem splitOnBlank_ne_nil (ls : List (List Char)) : splitOnBlank ls ≠ [] := by
  cases ls with
  | nil => simp [splitOnBlank]
  | cons L rest =>
    simp only [splitOnBlank]
    by_cases h : allSpace L
    · simp [h]
    · simp only [h]
      cases splitOnBlank rest with
      | nil => simp
      | cons g gs => simp

theorem splitOnBlank_cons_blank {L : List Char} {ls : List (List Char)}
    (h : allSpace L = true) :
    splitOnBlank (L :: ls) = [] :: splitOnBlank ls := by
  simp [splitOnBlank, h]

theorem splitOnBlank_cons_nonblank {L : List Char} {ls : List (List Char)}
    {g : List (List Char)} {gs : List (List (List Char))}
    (h : allSpace L = false) (hS : splitOnBlank ls = g :: gs) :
    splitOnBlank (L :: ls) = (L :: g) :: gs := by
  simp [splitOnBlank, h, hS]

theorem splitOnBlank_all_blank {ls : List (List Char)}
    (h : ∀ l ∈ ls, allSpace l = true) :
    ∀ g ∈ splitOnBlank ls, g = [] := by
  induction ls with
  | nil => simp [splitOnBlank]
  | cons L rest ih =>
    have hL : allSpace L = true := h L (by simp)
    simp only [splitOnBlank, hL, if_true]
    intro g hg
    rcases List.mem_cons.1 hg with rfl | hg
    · rfl
    · exact ih (fun l hl => h l (by simp [hl])) g hg

theorem splitOnBlank_blank_append {bs : List (List Char)}
    (R : List (List Char)) (h : ∀ l ∈ bs, allSpace l = true) :
    splitOnBlank (bs ++ R) =
      bs.map (fun _ => ([] : List (List Char))) ++ splitOnBlank R := by
  induction bs with
  | nil => simp
  | cons b bs ih =>
    have hb : allSpace b = true := h b (by simp)
    have ih2 := ih (fun l hl => h l (by simp [hl]))
    simp only [List.cons_append, splitOnBlank, hb, if_true, List.map_cons,
      List.append_eq]
    rw [ih2]

/-! Lemmas about `sepMatch` and `reSplitF`. -/

theorem sepMatch_none_of_not_mem {z : List Char} (h : '\n' ∉ z) :
    sepMatch z = none := by
  cases z with
  | nil => rfl
  | cons c rest =>
    have hc : ¬ c = '\n' := fun he => h (he ▸ List.mem_cons_self c rest)
    simp [sepMatch, hc]

theorem sepMatch_length {l rem : List Char} (h : sepMatch l = some rem) :
    rem.length < l.length := by
  cases l with
  | nil => cases h
  | cons c rest =>
    by_cases hc : c = '\n'
    · subst hc
      have hun : sepMatch ('\n' :: rest) =
          (afterLastC '\n' (rest.takeWhile pySpace)).map
            (fun tail => tail ++ rest.dropWhile pySpace) := by
        simp [sepMatch]
      rw [hun] at h
      cases hA : afterLastC '\n' (rest.takeWhile pySpace) with
      | none =>
        rw [hA] at h
        cases h
      | some tail =>
        rw [hA] at h
        have hrem : tail ++ rest.dropWhile pySpace = rem := by
          simpa using h
        rcases afterLastC_some hA with ⟨p, hp⟩
        have hlen : (rest.takeWhile pySpace).length +
            (rest.dropWhile pySpace).length = rest.length := by
          have h0 : (rest.takeWhile pySpace ++ rest.dropWhile pySpace).length
              = rest.length := by
            rw [List.takeWhile_append_dropWhile]
          rw [List.length_append] at h0
          exact h0
        have hlen2 : (rest.takeWhile pySpace).length = p.length + 1 + tail.length := by
          rw [hp]
          simp
          omega
        have hrlen : rem.length = tail.length + (rest.dropWhile pySpace).length := by
          rw [← hrem]
          simp
        simp only [List.length_cons]
        omega
    · simp [sepMatch, hc] at h

theorem reSplitF_canon :
    ∀ (f : Nat) (acc l : List Char), l.length ≤ f →
      reSplitF f acc l = reSplitF l.length acc l := by
  intro f
  induction f using Nat.strong_induction_on with
  | _ f ih =>
    intro acc l hle
    match f, l with
    | 0, l =>
      have h0 : l.length = 0 := Nat.le_zero.1 hle
      rw [h0]
    | f + 1, [] =>
      simp [reSplitF]
    | f + 1, c :: rest =>
      have hle2 : rest.length ≤ f := by
        simpa using hle
      cases hm : sepMatch (c :: rest) with
      | some rem =>
        have hrem : rem.length < rest.length + 1 := by
          simpa using sepMatch_length hm
        simp only [reSplitF, List.length_cons, hm]
        rw [ih f (Nat.lt_succ_self f) [] rem (by omega),
          ih rest.length (by omega) [] rem (by omega)]
      | none =>
        simp only [reSplitF, List.length_cons, hm]
        rw [ih f (Nat.lt_succ_self f) (c :: acc) rest hle2,
          ih rest.length (by omega) (c :: acc) rest (by omega)]

theorem reSplitF_fuel_irrel {f g : Nat} {acc l : List Char}
    (hf : l.length ≤ f) (hg : l.length ≤ g) :
    reSplitF f acc l = reSplitF g acc l := by
  rw [reSplitF_canon f acc l hf, reSplitF_canon g acc l hg]

theorem reSplitF_acc :
    ∀ (f : Nat) (l acc : List Char), ∃ h t,
      reSplitF f [] l = h :: t ∧ reSplitF f acc l = (acc.reverse ++ h) :: t := by
  intro f
  induction f with
  | zero =>
    intro l acc
    exact ⟨l, [], rfl, rfl⟩
  | succ f ih =>
    intro l acc
    cases l with
    | nil => exact ⟨[], [], rfl, by simp [reSplitF]⟩
    | cons c rest =>
      cases hm : sepMatch (c :: rest) with
      | some rem =>
        refine ⟨[], reSplitF f [] rem, ?e1, ?e2⟩
        · simp [reSplitF, hm]
        · simp [reSplitF, hm]
      | none =>
        rcases ih rest [c] with ⟨h1, t1, e1, e2⟩
        rcases ih rest (c :: acc) with ⟨h2, t2, e3, e4⟩
        rw [e1] at e3
        cases e3
        refine ⟨c :: h1, t1, ?f1, ?f2⟩
        · simp only [reSplitF, hm]
          simpa using e2
        · simp only [reSplitF, hm]
          rw [e4]
          simp

theorem reSplitF_pass :
    ∀ (x y acc : List Char) (f : Nat), (x ++ y).length ≤ f →
      (∀ i, i < x.length → sepMatch (x.drop i ++ y) = none) →
      reSplitF f acc (x ++ y) = reSplitF y.length (x.reverse ++ acc) y := by
  intro x
  induction x with
  | nil =>
    intro y acc f hf _
    simpa using reSplitF_canon f acc y (by simpa using hf)
  | cons c x ih =>
    intro y acc f hf hno
    cases f with
    | zero => simp at hf
    | succ f =>
      have h0 : sepMatch (c :: (x ++ y)) = none := by
        have := hno 0 (by simp)
        simpa using this
      show reSplitF (f + 1) acc (c :: (x ++ y)) = _
      simp only [reSplitF, h0]
      have hrec := ih y (c :: acc) f (by simpa using hf)
        (fun i hi => by
          have := hno (i + 1) (by simpa using hi)
          simpa using this)
      rw [hrec]
      simp

/-! Case lemmas describing how `reSplitNN` behaves on a line structure. -/

theorem sepMatch_drop_none {L y : List Char} (hnl : '\n' ∉ L) {i : Nat}
    (hi : i < L.length) : sepMatch (L.drop i ++ y) = none := by
  cases hD : L.drop i with
  | nil =>
    have := List.drop_eq_nil_iff_le.1 hD
    omega
  | cons d rest2 =>
    have hd : d ∈ L := List.drop_subset i L (hD ▸ List.mem_cons_self d rest2)
    have hdne : ¬ d = '\n' := fun he => hnl (he ▸ hd)
    simp [sepMatch, hdne]

theorem sepMatch_nl_no_nl {w : List Char} (h : '\n' ∉ w) :
    sepMatch ('\n' :: w) = none := by
  have h2 : '\n' ∉ w.takeWhile pySpace :=
    fun hmem => h ((List.takeWhile_sublist pySpace).subset hmem)
  simp [sepMatch, afterLastC_none_iff.2 h2]

theorem sepMatch_nl_nonblank {M z : List Char} (hM : allSpace M = false)
    (hnl : '\n' ∉ M) : sepMatch ('\n' :: (M ++ z)) = none := by
  have h1 : (M ++ z).takeWhile pySpace = M.takeWhile pySpace :=
    takeWhile_space_of_front z hM
  have h2 : '\n' ∉ M.takeWhile pySpace :=
    fun hmem => hnl ((List.takeWhile_sublist pySpace).subset hmem)
  simp [sepMatch, h1, afterLastC_none_iff.2 h2]

theorem takeWhile_joinNL_head {M : List Char} (g : List (List Char))
    (hM : allSpace M = false) :
    (joinNL (M :: g)).takeWhile pySpace = M.takeWhile pySpace := by
  cases g with
  | nil => rfl
  | cons x xs =>
    rw [joinNL_cons (by simp)]
    exact takeWhile_space_of_front _ hM

theorem allSpace_joinNL_head_false {M : List Char} (g : List (List Char))
    (hM : allSpace M = false) : allSpace (joinNL (M :: g)) = false := by
  cases g with
  | nil => exact hM
  | cons x xs =>
    rw [joinNL_cons (by simp), allSpace_append, hM]
    rfl

theorem sepMatch_to_next {bs : List (List Char)} {N : List Char}
    {r : List (List Char)} (hbs : bs ≠ [])
    (hblank : ∀ l ∈ bs, allSpace l = true)
    (hN : allSpace N = false) (hNnl : '\n' ∉ N) :
    sepMatch ('\n' :: joinNL (bs ++ N :: r)) = some (joinNL (N :: r)) := by
  have hZ : joinNL (bs ++ N :: r) = joinNL bs ++ '\n' :: joinNL (N :: r) :=
    joinNL_append hbs (List.cons_ne_nil N r)
  have hbsAll : allSpace (joinNL bs) = true := allSpace_joinNL hblank
  have hW : (joinNL bs ++ '\n' :: joinNL (N :: r)).takeWhile pySpace =
      (joinNL bs ++ ['\n']) ++ (joinNL (N :: r)).takeWhile pySpace := by
    rw [takeWhile_append_of_all _ (allSpace_iff.1 hbsAll)]
    have : ('\n' :: joinNL (N :: r)).takeWhile pySpace =
        '\n' :: (joinNL (N :: r)).takeWhile pySpace := by
      rw [List.takeWhile_cons]
      simp [pySpace]
    rw [this]
    simp
  have hNtw : (joinNL (N :: r)).takeWhile pySpace = N.takeWhile pySpace :=
    takeWhile_joinNL_head r hN
  have hNoNl : '\n' ∉ (joinNL (N :: r)).takeWhile pySpace := by
    rw [hNtw]
    exact fun hmem => hNnl ((List.takeWhile_sublist pySpace).subset hmem)
  have hAfter : afterLastC '\n'
      ((joinNL bs ++ '\n' :: joinNL (N :: r)).takeWhile pySpace) =
      some ((joinNL (N :: r)).takeWhile pySpace) := by
    rw [hW, afterLastC_append_none _ hNoNl, afterLastC_append_self]
    simp
  have hD : (joinNL bs ++ '\n' :: joinNL (N :: r)).dropWhile pySpace =
      (joinNL (N :: r)).dropWhile pySpace := by
    rw [List.append_cons]
    apply dropWhile_append_of_all
    intro c hc
    rcases List.mem_append.1 hc with h1 | h1
    · exact allSpace_iff.1 hbsAll c h1
    · rcases List.mem_singleton.1 h1 with rfl
      rfl
  rw [hZ]
  show sepMatch ('\n' :: (joinNL bs ++ '\n' :: joinNL (N :: r))) = _
  have hcond : ('\n' : Char) = '\n' := rfl
  simp only [sepMatch, if_pos hcond, hAfter, hD, Option.map_some']
  rw [List.takeWhile_append_dropWhile]
  simp

theorem sepMatch_all_blank {bs : List (List Char)} {Bk : List Char}
    (hbs : bs ≠ []) (hblank : ∀ l ∈ bs ++ [Bk], allSpace l = true)
    (hnlBk : '\n' ∉ Bk) :
    sepMatch ('\n' :: joinNL (bs ++ [Bk])) = some Bk := by
  have hZ : joinNL (bs ++ [Bk]) = joinNL bs ++ '\n' :: Bk :=
    joinNL_append hbs (List.cons_ne_nil Bk [])
  have hAllZ : allSpace (joinNL (bs ++ [Bk])) = true :=
    allSpace_joinNL hblank
  have hW2 : (joinNL bs ++ '\n' :: Bk).takeWhile pySpace =
      joinNL bs ++ '\n' :: Bk := by
    rw [← hZ]
    exact List.takeWhile_eq_self_iff.2 (allSpace_iff.1 hAllZ)
  have hAfter : afterLastC '\n' (joinNL bs ++ '\n' :: Bk) = some Bk := by
    rw [List.append_cons, afterLastC_append_none _ hnlBk, afterLastC_append_self]
    simp
  have hD2 : (joinNL bs ++ '\n' :: Bk).dropWhile pySpace = [] := by
    rw [← hZ]
    exact List.dropWhile_eq_nil_iff.2 (allSpace_iff.1 hAllZ)
  rw [hZ]
  show sepMatch ('\n' :: (joinNL bs ++ '\n' :: Bk)) = some Bk
  have hcond : ('\n' : Char) = '\n' := rfl
  simp only [sepMatch, if_pos hcond, hW2, hAfter, hD2, Option.map_some']
  simp

theorem sepMatch_drop_append {x1 x2 y : List Char}
    (h1 : ∀ i, i < x1.length → sepMatch (x1.drop i ++ (x2 ++ y)) = none)
    (h2 : ∀ i, i < x2.length → sepMatch (x2.drop i ++ y) = none) :
    ∀ i, i < (x1 ++ x2).length → sepMatch ((x1 ++ x2).drop i ++ y) = none := by
  intro i hi
  rw [List.drop_append_eq_append_drop]
  by_cases hlt : i < x1.length
  · have hz : i - x1.length = 0 := by omega
    rw [hz, List.drop_zero, List.append_assoc]
    exact h1 i hlt
  · have hx1 : x1.drop i = [] := List.drop_eq_nil_iff.2 (by omega)
    rw [hx1, List.nil_append]
    apply h2
    rw [List.length_append] at hi
    omega

theorem reSplitNN_no_sep {l : List Char}
    (h : ∀ i, i < l.length → sepMatch (l.drop i ++ []) = none) :
    reSplitNN l = [l] := by
  have hp : reSplitF (l ++ []).length [] (l ++ []) =
      reSplitF ([] : List Char).length (l.reverse ++ []) [] :=
    reSplitF_pass l [] [] (l ++ []).length (le_refl _) h
  have hp2 : reSplitF l.length [] l = reSplitF 0 (l.reverse ++ []) [] := by
    calc reSplitF l.length [] l
        = reSplitF (l ++ []).length [] (l ++ []) := by rw [List.append_nil]
      _ = reSplitF ([] : List Char).length (l.reverse ++ []) [] := hp
  rw [reSplitNN, hp2]
  simp [reSplitF]

theorem reSplitNN_no_nl {L : List Char} (h : '\n' ∉ L) : reSplitNN L = [L] :=
  reSplitNN_no_sep (fun i hi => sepMatch_drop_none h hi)

theorem reSplitNN_head_nonblank {L M : List Char} {rest : List (List Char)}
    (hL : '\n' ∉ L) (hM : allSpace M = false) (hMnl : '\n' ∉ M) :
    ∃ h t, reSplitNN (joinNL (M :: rest)) = (M ++ h) :: t ∧
      reSplitNN (joinNL (L :: M :: rest)) = (L ++ '\n' :: (M ++ h)) :: t := by
  obtain ⟨z, hz⟩ : ∃ z, joinNL (M :: rest) = M ++ z := by
    cases rest with
    | nil => exact ⟨[], by simp [joinNL]⟩
    | cons a b => exact ⟨'\n' :: joinNL (a :: b), joinNL_cons (by simp)⟩
  obtain ⟨h, t, e1, e2⟩ := reSplitF_acc z.length z (M.reverse ++ [])
  obtain ⟨h2, t2, e3, e4⟩ :=
    reSplitF_acc z.length z ((L ++ ('\n' :: M)).reverse ++ [])
  rw [e1] at e3
  cases e3
  have hpassA : reSplitF (M ++ z).length [] (M ++ z) =
      reSplitF z.length (M.reverse ++ []) z :=
    reSplitF_pass M z [] (M ++ z).length (le_refl _)
      (fun i hi => sepMatch_drop_none hMnl hi)
  have hA : reSplitNN (joinNL (M :: rest)) = (M ++ h) :: t := by
    rw [hz, reSplitNN, hpassA, e2]
    simp
  have hx2 : ∀ i, i < ('\n' :: M).length →
      sepMatch (('\n' :: M).drop i ++ z) = none := by
    intro i hi
    cases i with
    | zero =>
      have := @sepMatch_nl_nonblank M z hM hMnl
      simpa using this
    | succ j =>
      have hj : j < M.length := by simpa using hi
      simpa using @sepMatch_drop_none M z hMnl j hj
  have hx : ∀ i, i < (L ++ ('\n' :: M)).length →
      sepMatch ((L ++ ('\n' :: M)).drop i ++ z) = none :=
    sepMatch_drop_append (fun i hi => sepMatch_drop_none hL hi) hx2
  have hpassB : reSplitF ((L ++ ('\n' :: M)) ++ z).length []
        ((L ++ ('\n' :: M)) ++ z) =
      reSplitF z.length ((L ++ ('\n' :: M)).reverse ++ []) z :=
    reSplitF_pass (L ++ ('\n' :: M)) z [] _ (le_refl _) hx
  have hT : joinNL (L :: M :: rest) = (L ++ ('\n' :: M)) ++ z := by
    rw [joinNL_cons (by simp), hz]
    simp
  have hB : reSplitNN (joinNL (L :: M :: rest)) = (L ++ '\n' :: (M ++ h)) :: t := by
    rw [hT, reSplitNN, hpassB, e4]
    simp
  exact ⟨h, t, hA, hB⟩

theorem reSplitNN_blank_then_next {L : List Char} {bs : List (List Char)}
    {N : List Char} {r : List (List Char)}
    (hL : '\n' ∉ L) (hbs : bs ≠ []) (hblank : ∀ l ∈ bs, allSpace l = true)
    (hN : allSpace N = false) (hNnl : '\n' ∉ N) :
    reSplitNN (joinNL (L :: (bs ++ N :: r))) =
      L :: reSplitNN (joinNL (N :: r)) := by
  set y := '\n' :: joinNL (bs ++ N :: r) with hy
  have hT : joinNL (L :: (bs ++ N :: r)) = L ++ y := by
    rw [joinNL_cons (by simp [hbs])]
  have hsep : sepMatch y = some (joinNL (N :: r)) :=
    sepMatch_to_next hbs hblank hN hNnl
  have hrem : (joinNL (N :: r)).length < y.length := sepMatch_length hsep
  have hpass : reSplitF (L ++ y).length [] (L ++ y) =
      reSplitF y.length (L.reverse ++ []) y :=
    reSplitF_pass L y [] _ (le_refl _) (fun i hi => sepMatch_drop_none hL hi)
  have hstep : reSplitF y.length (L.reverse ++ []) y =
      L :: reSplitF (joinNL (bs ++ N :: r)).length [] (joinNL (N :: r)) := by
    rw [hy]
    simp only [reSplitF, List.length_cons, hsep]
    simp
  rw [hT, reSplitNN, hpass, hstep]
  rw [@reSplitF_fuel_irrel ((joinNL (bs ++ N :: r)).length)
    ((joinNL (N :: r)).length) [] (joinNL (N :: r))
    (by simp [hy] at hrem; omega) (le_refl _)]
  rfl

theorem reSplitNN_blank_end {L : List Char} {bs : List (List Char)}
    {Bk : List Char} (hL : '\n' ∉ L) (hbs : bs ≠ [])
    (hblank : ∀ l ∈ bs ++ [Bk], allSpace l = true) (hnlBk : '\n' ∉ Bk) :
    reSplitNN (joinNL (L :: (bs ++ [Bk]))) = [L, Bk] := by
  set y := '\n' :: joinNL (bs ++ [Bk]) with hy
  have hT : joinNL (L :: (bs ++ [Bk])) = L ++ y := by
    rw [joinNL_cons (by simp [hbs])]
  have hsep : sepMatch y = some Bk := sepMatch_all_blank hbs hblank hnlBk
  have hrem : Bk.length < y.length := sepMatch_length hsep
  have hpass : reSplitF (L ++ y).length [] (L ++ y) =
      reSplitF y.length (L.reverse ++ []) y :=
    reSplitF_pass L y [] _ (le_refl _) (fun i hi => sepMatch_drop_none hL hi)
  have hstep : reSplitF y.length (L.reverse ++ []) y =
      L :: reSplitF (joinNL (bs ++ [Bk])).length [] Bk := by
    rw [hy]
    simp only [reSplitF, List.length_cons, hsep]
    simp
  rw [hT, reSplitNN, hpass, hstep]
  rw [@reSplitF_fuel_irrel ((joinNL (bs ++ [Bk])).length)
    (Bk.length) [] Bk (by simp [hy] at hrem; omega) (le_refl _)]
  have : reSplitF Bk.length [] Bk = reSplitNN Bk := rfl
  rw [this, reSplitNN_no_nl hnlBk]

theorem reSplitNN_two_lines_no_sep {L M : List Char}
    (hL : '\n' ∉ L) (hM : '\n' ∉ M) :
    reSplitNN (L ++ '\n' :: M) = [L ++ '\n' :: M] := by
  apply reSplitNN_no_sep
  have hx2 : ∀ i, i < ('\n' :: M).length →
      sepMatch (('\n' :: M).drop i ++ []) = none := by
    intro i hi
    cases i with
    | zero =>
      have := @sepMatch_nl_no_nl (M ++ []) (by simpa using hM)
      simpa using this
    | succ j =>
      have hj : j < M.length := by simpa using hi
      simpa using @sepMatch_drop_none M [] hM j hj
  have := @sepMatch_drop_append L ('\n' :: M) []
    (fun i hi => sepMatch_drop_none hL hi) hx2
  intro i hi
  exact this i hi

theorem strip_nil : strip [] = [] := rfl

theorem dropWhile_head_not {α : Type} {p : α → Bool} {l : List α} {x : α}
    {xs : List α} (h : l.dropWhile p = x :: xs) : p x = false := by
  induction l with
  | nil => cases h
  | cons c cs ih =>
    rw [List.dropWhile_cons] at h
    by_cases hc : p c = true
    · rw [if_pos hc] at h
      exact ih h
    · rw [if_neg hc] at h
      cases h
      simpa using hc

theorem filter_ne_nil_all_nil {xs : List (List Char)}
    (h : ∀ p ∈ xs, p = []) :
    xs.filter (fun p => p ≠ []) = [] :=
  List.filter_eq_nil_iff.2 (fun a ha => by simp [h a ha])

theorem blank_groups_filter (bs : List (List Char)) :
    (((bs.map (fun _ => ([] : List (List Char)))).map
        (fun g => strip (joinNL g))).filter (fun p => p ≠ [])) = [] := by
  apply filter_ne_nil_all_nil
  intro p hp
  rcases List.mem_map.1 hp with ⟨g, hg, rfl⟩
  rcases List.mem_map.1 hg with ⟨_, _, rfl⟩
  rfl

/-- Central equivalence: on the line decomposition of a text, the embedded
`re.split(r'\n\s*\n', ...)` pipeline (split, strip, drop empties) produces
exactly the spec's paragraphs: the maximal runs of non-blank lines, joined
by newlines, stripped, with empty paragraphs dropped. -/
theorem paragraphs_master :
    ∀ (n : Nat) (ls : List (List Char)), ls.length ≤ n →
      (∀ L ∈ ls, '\n' ∉ L) →
      pyParagraphs (joinNL ls) =
        ((splitOnBlank ls).map (fun g => strip (joinNL g))).filter
          (fun p => p ≠ []) := by
  intro n
  induction n with
  | zero =>
    intro ls hle _
    have h0 : ls = [] := List.length_eq_zero.1 (Nat.le_zero.1 hle)
    subst h0
    decide
  | succ n ih =>
    intro ls hle hnl
    cases ls with
    | nil => decide
    | cons L ls1 =>
      have hLnl : '\n' ∉ L := hnl L (by simp)
      cases ls1 with
      | nil =>
        have hJ : joinNL [L] = L := rfl
        rw [hJ, pyParagraphs, reSplitNN_no_nl hLnl]
        by_cases hbl : allSpace L = true
        · rw [List.map_singleton, strip_all hbl]
          simp [splitOnBlank, hbl, joinNL, strip_nil]
        · have hbf : allSpace L = false := by
            revert hbl; cases allSpace L <;> simp
          rw [List.map_singleton]
          simp only [splitOnBlank, hbf]
          have hjL : joinNL [L] = L := rfl
          simp [hjL, strip_ne_nil_of_not hbf]
      | cons M rest =>
        have hMnl : '\n' ∉ M := hnl M (by simp)
        by_cases hM : allSpace M = true
        · -- the second line is blank: a separator match begins after L
          have hMrest : M :: rest =
              (M :: rest.takeWhile allSpace) ++ rest.dropWhile allSpace := by
            rw [List.cons_append, List.takeWhile_append_dropWhile]
          have hbs_blank : ∀ l ∈ M :: rest.takeWhile allSpace,
              allSpace l = true := by
            intro l hl
            rcases List.mem_cons.1 hl with rfl | hl
            · exact hM
            · exact List.mem_takeWhile_imp hl
          have hbs_nl : ∀ l ∈ M :: rest.takeWhile allSpace, '\n' ∉ l := by
            intro l hl
            rcases List.mem_cons.1 hl with rfl | hl
            · exact hMnl
            · exact hnl l (by
                simp only [List.mem_cons]
                exact Or.inr (Or.inr
                  ((List.takeWhile_sublist allSpace).subset hl)))
          cases hR : rest.dropWhile allSpace with
          | nil =>
            -- every line after L is blank
            have hrest_eq : rest = rest.takeWhile allSpace := by
              have := List.takeWhile_append_dropWhile allSpace rest
              rw [hR, List.append_nil] at this
              exact this.symm
            have hrest_blank : ∀ l ∈ rest, allSpace l = true := by
              intro l hl
              exact List.mem_takeWhile_imp (hrest_eq ▸ hl)
            rcases List.eq_nil_or_concat rest with hrnil | ⟨B2, Bk, hBk⟩
            · -- exactly two lines, the second blank: no separator matches
              subst hrnil
              have hJ2 : joinNL [L, M] = L ++ '\n' :: M := rfl
              rw [hJ2, pyParagraphs, reSplitNN_two_lines_no_sep hLnl hMnl]
              have hstrip : strip (L ++ '\n' :: M) = strip L := by
                apply strip_append_all_right
                have : allSpace ('\n' :: M) = (pySpace '\n' && allSpace M) := rfl
                rw [this, hM]
                decide
              rw [List.map_singleton, hstrip]
              by_cases hbl : allSpace L = true
              · rw [strip_all hbl]
                simp [splitOnBlank, hbl, hM, joinNL, strip_nil]
              · have hbf : allSpace L = false := by
                  revert hbl; cases allSpace L <;> simp
                simp only [splitOnBlank, hbf, hM]
                simp [strip_ne_nil_of_not hbf, joinNL, strip_nil]
            · -- at least two blank lines after L: the match swallows them
              -- up to the last one, leaving a blank final piece
              have hBk_blank : allSpace Bk = true :=
                hrest_blank Bk (by simp [hBk, List.concat_eq_append])
              have hBk_nl : '\n' ∉ Bk :=
                hnl Bk (by simp [hBk, List.concat_eq_append])
              have hshape : L :: M :: rest = L :: ((M :: B2) ++ [Bk]) := by
                simp [hBk, List.concat_eq_append]
              have hblank2 : ∀ l ∈ (M :: B2) ++ [Bk], allSpace l = true := by
                intro l hl
                rcases List.mem_append.1 hl with h1 | h1
                · rcases List.mem_cons.1 h1 with rfl | h1
                  · exact hM
                  · exact hrest_blank l (by simp [hBk, List.concat_eq_append, h1])
                · rcases List.mem_singleton.1 h1 with rfl
                  exact hBk_blank
              have hsplit := @reSplitNN_blank_end L (M :: B2) Bk
                hLnl (by simp) hblank2 hBk_nl
              have hJarg : joinNL (L :: M :: rest) =
                  joinNL (L :: ((M :: B2) ++ [Bk])) := by
                rw [← hshape]
              rw [hJarg, pyParagraphs, hsplit]
              have hmap : ([L, Bk].map strip) = [strip L, strip Bk] := rfl
              rw [hmap, strip_all hBk_blank]
              -- right side: every group after the one holding L is empty
              by_cases hbl : allSpace L = true
              · rw [strip_all hbl]
                have hgroups : ∀ g ∈ splitOnBlank (L :: M :: rest), g = [] :=
                  splitOnBlank_all_blank (by
                    intro l hl
                    rcases List.mem_cons.1 hl with rfl | hl
                    · exact hbl
                    · rcases List.mem_cons.1 hl with rfl | hl
                      · exact hM
                      · exact hrest_blank l hl)
                have hrhs : ((splitOnBlank (L :: M :: rest)).map
                    (fun g => strip (joinNL g))).filter (fun p => p ≠ []) = [] :=
                  filter_ne_nil_all_nil (by
                    intro p hp
                    rcases List.mem_map.1 hp with ⟨g, hg, rfl⟩
                    rw [hgroups g hg]
                    rfl)
                rw [hrhs]
                decide
              · have hbf : allSpace L = false := by
                  revert hbl; cases allSpace L <;> simp
                have hg2 : ∀ g ∈ splitOnBlank (M :: rest), g = [] :=
                  splitOnBlank_all_blank (by
                    intro l hl
                    rcases List.mem_cons.1 hl with rfl | hl
                    · exact hM
                    · exact hrest_blank l hl)
                cases hS : splitOnBlank (M :: rest) with
                | nil => exact absurd hS (splitOnBlank_ne_nil _)
                | cons g gs =>
                  have hgnil : g = [] := hg2 g (hS ▸ List.mem_cons_self g gs)
                  have hsb : splitOnBlank (L :: M :: rest) = (L :: g) :: gs :=
                    splitOnBlank_cons_nonblank hbf hS
                  have hgsnil : ∀ p ∈ gs.map (fun g => strip (joinNL g)),
                      p = [] := by
                    intro p hp
                    rcases List.mem_map.1 hp with ⟨g', hg', rfl⟩
                    rw [hg2 g' (hS ▸ List.mem_cons_of_mem g hg')]
                    rfl
                  have hkeep : (strip L ≠ []) := strip_ne_nil_of_not hbf
                  have hjL : strip (joinNL [L]) = strip L := rfl
                  rw [hsb, hgnil]
                  simp only [List.map_cons, hjL, List.filter_cons]
                  rw [filter_ne_nil_all_nil hgsnil]
                  simp [hkeep]
          | cons N rest2 =>
            -- the blank block is followed by a non-blank line N
            have hNb : allSpace N = false := dropWhile_head_not hR
            have hNmem : N ∈ rest :=
              (List.dropWhile_sublist allSpace).subset
                (hR ▸ List.mem_cons_self N rest2)
            have hNnl : '\n' ∉ N := hnl N (by simp [hNmem])
            have hshape : L :: M :: rest =
                L :: ((M :: rest.takeWhile allSpace) ++ N :: rest2) := by
              rw [← hR, List.cons_append, List.takeWhile_append_dropWhile]
            have hsplit := @reSplitNN_blank_then_next
              L (M :: rest.takeWhile allSpace) N rest2
              hLnl (by simp) hbs_blank hNb hNnl
            have hlenR : (N :: rest2).length ≤ n := by
              have h1 : (rest.dropWhile allSpace).length ≤ rest.length :=
                (List.dropWhile_sublist allSpace).length_le
              rw [hR] at h1
              simp only [List.length_cons] at hle h1 ⊢
              omega
            have hnlR : ∀ l ∈ N :: rest2, '\n' ∉ l := by
              intro l hl
              have : l ∈ rest :=
                (List.dropWhile_sublist allSpace).subset (hR ▸ hl)
              exact hnl l (by simp [this])
            have ihR := ih (N :: rest2) hlenR hnlR
            have hJarg : joinNL (L :: M :: rest) =
                joinNL (L :: ((M :: rest.takeWhile allSpace) ++ N :: rest2)) := by
              rw [← hshape]
            rw [hJarg, pyParagraphs, hsplit]
            rw [List.map_cons, List.filter_cons]
            have hsbR : splitOnBlank ((M :: rest.takeWhile allSpace) ++ N :: rest2) =
                (M :: rest.takeWhile allSpace).map (fun _ => []) ++
                  splitOnBlank (N :: rest2) :=
              splitOnBlank_blank_append _ hbs_blank
            rw [pyParagraphs] at ihR
            by_cases hbl : allSpace L = true
            · rw [strip_all hbl, ihR]
              rw [hshape, splitOnBlank_cons_blank hbl, hsbR]
              simp only [List.map_cons, List.map_append, List.filter_cons,
                List.filter_append]
              rw [show strip (joinNL ([] : List (List Char))) = [] from rfl]
              rw [blank_groups_filter]
              simp
            · have hbf : allSpace L = false := by
                revert hbl; cases allSpace L <;> simp
              have hkeep : strip L ≠ [] := strip_ne_nil_of_not hbf
              have hconsS : splitOnBlank ((M :: rest.takeWhile allSpace) ++
                  N :: rest2) = [] :: ((rest.takeWhile allSpace).map
                    (fun _ => []) ++ splitOnBlank (N :: rest2)) := by
                rw [hsbR]
                rfl
              have hsb := splitOnBlank_cons_nonblank hbf hconsS
              rw [ihR, hshape, hsb]
              simp only [List.map_cons, List.map_append, List.filter_cons,
                List.filter_append]
              rw [show strip (joinNL [L]) = strip L from rfl]
              rw [blank_groups_filter]
              simp [hkeep]
        · -- the second line is not blank: no separator before it, and the
          -- first python piece extends the first paragraph
          have hMf : allSpace M = false := by
            revert hM; cases allSpace M <;> simp
          obtain ⟨h, t, hA, hB⟩ := @reSplitNN_head_nonblank
            L M rest hLnl hMf hMnl
          have hlen2 : (M :: rest).length ≤ n := by
            simp only [List.length_cons] at hle ⊢
            omega
          have ihMR := ih (M :: rest) hlen2
            (fun l hl => hnl l (by simp [List.mem_cons] at hl ⊢; tauto))
          rw [pyParagraphs, hA] at ihMR
          cases hS : splitOnBlank rest with
          | nil => exact absurd hS (splitOnBlank_ne_nil _)
          | cons g gs =>
            have hsbMR : splitOnBlank (M :: rest) = (M :: g) :: gs :=
              splitOnBlank_cons_nonblank hMf hS
            rw [hsbMR] at ihMR
            have hMh : allSpace (M ++ h) = false := by
              rw [allSpace_append, hMf]
              rfl
            have hheadL : strip (M ++ h) ≠ [] := strip_ne_nil_of_not hMh
            have hMg : allSpace (joinNL (M :: g)) = false :=
              allSpace_joinNL_head_false g hMf
            have hheadR : strip (joinNL (M :: g)) ≠ [] :=
              strip_ne_nil_of_not hMg
            rw [List.map_cons, List.filter_cons_of_pos (by simpa using hheadL),
              List.map_cons, List.filter_cons_of_pos (by simpa using hheadR)]
              at ihMR
            have hstrips := List.cons.inj ihMR
            rw [pyParagraphs, hB]
            by_cases hbl : allSpace L = true
            · have habs : strip (L ++ '\n' :: (M ++ h)) = strip (M ++ h) := by
                rw [List.append_cons]
                apply strip_append_all_left
                rw [allSpace_append, hbl]
                decide
              have hsb : splitOnBlank (L :: M :: rest) =
                  [] :: (M :: g) :: gs := by
                rw [splitOnBlank_cons_blank hbl, hsbMR]
              rw [hsb]
              have hnil0 : strip (joinNL ([] : List (List Char))) = [] := rfl
              rw [List.map_cons, List.filter_cons_of_pos (by
                  rw [habs]
                  simpa using hheadL)]
              rw [habs, List.map_cons, hnil0, List.filter_cons_of_neg (by simp),
                List.map_cons, List.filter_cons_of_pos (by simpa using hheadR)]
              rw [hstrips.1, hstrips.2]
            · have hbf : allSpace L = false := by
                revert hbl; cases allSpace L <;> simp
              have hmid1 : strip (L ++ '\n' :: (M ++ h)) =
                  ldrop L ++ '\n' :: rdrop (M ++ h) := strip_mid hbf hMh
              have hsb : splitOnBlank (L :: M :: rest) =
                  (L :: M :: g) :: gs :=
                splitOnBlank_cons_nonblank hbf hsbMR
              rw [hsb]
              have hjoin : joinNL (L :: M :: g) = L ++ '\n' :: joinNL (M :: g) :=
                joinNL_cons (by simp)
              have hmid2 : strip (joinNL (L :: M :: g)) =
                  ldrop L ++ '\n' :: rdrop (joinNL (M :: g)) := by
                rw [hjoin]
                exact strip_mid hbf hMg
              have hrd : rdrop (M ++ h) = rdrop (joinNL (M :: g)) := by
                rw [rdrop_eq_takeWhile_append_strip hMh,
                  rdrop_eq_takeWhile_append_strip hMg,
                  takeWhile_space_of_front h hMf,
                  takeWhile_joinNL_head g hMf, hstrips.1]
              rw [List.map_cons, List.filter_cons_of_pos (by
                  rw [hmid1]
                  simp),
                List.map_cons, List.filter_cons_of_pos (by
                  rw [hmid2]
                  simp)]
              rw [hmid1, hmid2, hrd, hstrips.2]

/-- With enough fuel, no piece produced by `re.split(r'[/\s]+', ...)`
contains a separator character. -/
theorem runSplitF_no_sep :
    ∀ (f : Nat) (l : List Char), l.length ≤ f →
      ∀ piece ∈ runSplitF f l, ∀ c ∈ piece, slashSpace c = false := by
  intro f
  induction f with
  | zero =>
    intro l hle piece hp c hc
    have h0 : l = [] := List.length_eq_zero.1 (Nat.le_zero.1 hle)
    subst h0
    simp only [runSplitF, List.mem_singleton] at hp
    subst hp
    cases hc
  | succ f ih =>
    intro l hle piece hp c hc
    cases l with
    | nil =>
      simp only [runSplitF, List.mem_singleton] at hp
      subst hp
      cases hc
    | cons d rest =>
      by_cases hd : slashSpace d = true
      · simp only [runSplitF, hd, if_true, List.mem_cons] at hp
        rcases hp with rfl | hp
        · cases hc
        · have hlen : (rest.dropWhile slashSpace).length ≤ f := by
            have := (@List.dropWhile_sublist _ rest slashSpace).length_le
            simp only [List.length_cons] at hle
            omega
          exact ih _ hlen piece hp c hc
      · have hd2 : slashSpace d = false := by
          revert hd; cases slashSpace d <;> simp
        simp only [runSplitF] at hp
        rw [if_neg hd] at hp
        have hlen : rest.length ≤ f := by
          simp only [List.length_cons] at hle
          omega
        cases hs : runSplitF f rest with
        | nil =>
          rw [hs] at hp
          simp only [List.mem_singleton] at hp
          subst hp
          rcases List.mem_singleton.1 hc with rfl
          exact hd2
        | cons g gs =>
          rw [hs] at hp
          rcases List.mem_cons.1 hp with rfl | hp
          · rcases List.mem_cons.1 hc with rfl | hc
            · exact hd2
            · exact ih _ hlen g (hs ▸ List.mem_cons_self g gs) c hc
          · exact ih _ hlen piece (hs ▸ List.mem_cons_of_mem g hp) c hc

theorem strip_no_space {l : List Char} (h : ∀ c ∈ l, pySpace c = false) :
    strip l = l := by
  have hld : ldrop l = l := by
    cases l with
    | nil => rfl
    | cons c rest =>
      have := h c (by simp)
      simp [ldrop, List.dropWhile_cons, this]
  have hrd : rdrop l = l := by
    unfold rdrop
    cases hr : l.reverse with
    | nil =>
      have hnil : l = [] := by simpa using congrArg List.reverse hr
      subst hnil
      rfl
    | cons c rest =>
      have hcl : c ∈ l := by
        have : c ∈ l.reverse := hr ▸ List.mem_cons_self c rest
        simpa using this
      rw [List.dropWhile_cons, h c hcl]
      simp only [Bool.false_eq_true, if_false]
      rw [← hr]
      simp
  rw [strip, hld, hrd]

/-- In the no-slash branch, the code's extra `part.strip()` is the
identity, so the parts are exactly the non-empty `[/\s]+`-run pieces. -/
theorem headerParts_no_slash {header : List Char}
    (h : header.contains '/' = false) :
    headerParts header = (runSplit header).filter (fun p => p ≠ []) := by
  rw [headerParts, if_neg (by rw [h]; simp)]
  have hmap : (runSplit header).map strip = runSplit header := by
    have : ∀ piece ∈ runSplit header, strip piece = piece := by
      intro piece hp
      apply strip_no_space
      intro c hc
      have h3 := runSplitF_no_sep header.length header (le_refl _) piece hp c hc
      exact (by simpa [slashSpace] using h3 :
        ¬ c = '/' ∧ pySpace c = false).2
    calc (runSplit header).map strip
        = (runSplit header).map id := List.map_congr_left this
      _ = runSplit header := List.map_id _
  rw [hmap]

/-- All paragraph-level pipelines agree; the publisher is read off the
first paragraph. -/
theorem pyParagraphs_eq_specParagraphs (text : List Char) :
    pyParagraphs text = specParagraphs text := by
  have h := paragraphs_master (linesOf text).length (linesOf text) (le_refl _)
    (fun L hL => linesOf_no_nl hL)
  rw [joinNL_linesOf] at h
  exact h

/-! Characterization of the header-part scan and of the whole record. -/

theorem lastScan_cons {β : Type} (f : List Char → Option β) (p : List Char)
    (parts : List (List Char)) :
    (p :: parts).reverse.findSome? f =
      (parts.reverse.findSome? f).or (f p) := by
  rw [List.reverse_cons, List.findSome?_append]
  congr 1
  rw [List.findSome?_cons]
  cases f p <;> rfl

theorem scanParts_fst :
    ∀ (parts : List (List Char)) (st : ScanState),
      (parts.foldl scanPart st).1 = ((parts.reverse.findSome? (numUnitSearch '年')).map digitsToNat).or st.1 := by
  intro parts
  induction parts with
  | nil => intro st; rfl
  | cons p parts ih =>
    intro st
    rw [List.foldl_cons, ih (scanPart st p), lastScan_cons]
    cases hxs : parts.reverse.findSome? (numUnitSearch '年') with
    | some w => rfl
    | none =>
      cases hp : numUnitSearch '年' p <;> simp [scanPart, hp]

theorem scanParts_month :
    ∀ (parts : List (List Char)) (st : ScanState),
      (parts.foldl scanPart st).2.1 = ((parts.reverse.findSome? (numUnitSearch '月')).map digitsToNat).or st.2.1 := by
  intro parts
  induction parts with
  | nil => intro st; rfl
  | cons p parts ih =>
    intro st
    rw [List.foldl_cons, ih (scanPart st p), lastScan_cons]
    cases hxs : parts.reverse.findSome? (numUnitSearch '月') with
    | some w => rfl
    | none =>
      cases hp : numUnitSearch '月' p <;> simp [scanPart, hp]

theorem scanParts_day :
    ∀ (parts : List (List Char)) (st : ScanState),
      (parts.foldl scanPart st).2.2.1 = ((parts.reverse.findSome? (numUnitSearch '日')).map digitsToNat).or st.2.2.1 := by
  intro parts
  induction parts with
  | nil => intro st; rfl
  | cons p parts ih =>
    intro st
    rw [List.foldl_cons, ih (scanPart st p), lastScan_cons]
    cases hxs : parts.reverse.findSome? (numUnitSearch '日') with
    | some w => rfl
    | none =>
      cases hp : numUnitSearch '日' p <;> simp [scanPart, hp]

theorem scanParts_vol :
    ∀ (parts : List (List Char)) (st : ScanState),
      (parts.foldl scanPart st).2.2.2 = (parts.reverse.findSome? volSearch).or st.2.2.2 := by
  intro parts
  induction parts with
  | nil => intro st; rfl
  | cons p parts ih =>
    intro st
    rw [List.foldl_cons, ih (scanPart st p), lastScan_cons]
    cases hxs : parts.reverse.findSome? volSearch with
    | some w => rfl
    | none =>
      cases hp : volSearch p <;> simp [scanPart, hp]

theorem option_match_map {A B : Type} (g : A -> B) (o : Option A) :
    (match o with | some a => some (g a) | none => none) = o.map g := by
  cases o <;> rfl

theorem option_match_id {A : Type} (o : Option A) :
    (match o with | some a => some a | none => none) = o := by
  cases o <;> rfl

/-- Every field of the record, in closed form. -/
theorem extract_shape (pdf_path text : List Char) :
    extract_newspaper_info pdf_path text =
      { filename := some (basename pdf_path)
        publisher := (hpsOf text).head?
        year := (lastDateScan '年' (hpsOf text)).map digitsToNat
        month := (lastDateScan '月' (hpsOf text)).map digitsToNat
        day := (lastDateScan '日' (hpsOf text)).map digitsToNat
        volume := lastVolScan (hpsOf text)
        title := titleOf text
        text := some (bodyOf text) } := by
  rw [extract_newspaper_info]
  cases hP : pyParagraphs text with
  | nil =>
    simp only [hP]
    rw [hpsOf, hP, titleOf, hP, bodyOf, hP]
    rfl
  | cons p0 ptail =>
    simp only [hP]
    have hhps : hpsOf text = headerParts (strip p0) := by
      rw [hpsOf, hP]
    rw [hhps]
    have hyear := scanParts_fst (headerParts (strip p0)) (none, none, none, none)
    have hmonth := scanParts_month (headerParts (strip p0)) (none, none, none, none)
    have hday := scanParts_day (headerParts (strip p0)) (none, none, none, none)
    have hvol := scanParts_vol (headerParts (strip p0)) (none, none, none, none)
    cases hH : headerParts (strip p0) with
    | nil =>
      simp only [hH]
      rw [hH] at hyear hmonth hday hvol
      have htitle : titleOf text = (match p0 :: ptail with
          | _ :: p1 :: _ => some (strip p1)
          | _ => none) := by
        unfold titleOf
        rw [hP]
      have hbody : bodyOf text = (match p0 :: ptail with
          | _ :: _ :: p2 :: rest => joinNL (p2 :: rest)
          | _ => text) := by
        unfold bodyOf
        rw [hP]
      cases ptail with
      | nil =>
        simp only []
        rw [RawInfo.mk.injEq]
        refine ⟨rfl, rfl, ?_, ?_, ?_, ?_, ?_, ?_⟩
        · simpa [lastDateScan, scanParts] using hyear.symm
        · simpa [lastDateScan, scanParts] using hmonth.symm
        · simpa [lastDateScan, scanParts] using hday.symm
        · simpa [lastVolScan, scanParts] using hvol.symm
        · rw [htitle]
        · simp [hbody]
      | cons p1 ptail2 =>
        cases ptail2 with
        | nil =>
          simp only []
          rw [RawInfo.mk.injEq]
          refine ⟨rfl, rfl, ?_, ?_, ?_, ?_, ?_, ?_⟩
          · simpa [lastDateScan, scanParts] using hyear.symm
          · simpa [lastDateScan, scanParts] using hmonth.symm
          · simpa [lastDateScan, scanParts] using hday.symm
          · simpa [lastVolScan, scanParts] using hvol.symm
          · rw [htitle]
          · simp [hbody]
        | cons p2 rest =>
          simp only []
          rw [RawInfo.mk.injEq]
          refine ⟨rfl, rfl, ?_, ?_, ?_, ?_, ?_, ?_⟩
          · simpa [lastDateScan, scanParts] using hyear.symm
          · simpa [lastDateScan, scanParts] using hmonth.symm
          · simpa [lastDateScan, scanParts] using hday.symm
          · simpa [lastVolScan, scanParts] using hvol.symm
          · rw [htitle]
          · simp [hbody]
    | cons h0 hrest =>
      simp only [hH]
      rw [hH] at hyear hmonth hday hvol
      have htitle : titleOf text = (match p0 :: ptail with
          | _ :: p1 :: _ => some (strip p1)
          | _ => none) := by
        unfold titleOf
        rw [hP]
      have hbody : bodyOf text = (match p0 :: ptail with
          | _ :: _ :: p2 :: rest => joinNL (p2 :: rest)
          | _ => text) := by
        unfold bodyOf
        rw [hP]
      cases ptail with
      | nil =>
        simp only []
        rw [RawInfo.mk.injEq]
        refine ⟨rfl, rfl, ?_, ?_, ?_, ?_, ?_, ?_⟩
        · simpa [lastDateScan, scanParts] using hyear
        · simpa [lastDateScan, scanParts] using hmonth
        · simpa [lastDateScan, scanParts] using hday
        · simpa [lastVolScan, scanParts] using hvol
        · rw [htitle]
        · simp [hbody]
      | cons p1 ptail2 =>
        cases ptail2 with
        | nil =>
          simp only []
          rw [RawInfo.mk.injEq]
          refine ⟨rfl, rfl, ?_, ?_, ?_, ?_, ?_, ?_⟩
          · simpa [lastDateScan, scanParts] using hyear
          · simpa [lastDateScan, scanParts] using hmonth
          · simpa [lastDateScan, scanParts] using hday
          · simpa [lastVolScan, scanParts] using hvol
          · rw [htitle]
          · simp [hbody]
        | cons p2 rest =>
          simp only []
          rw [RawInfo.mk.injEq]
          refine ⟨rfl, rfl, ?_, ?_, ?_, ?_, ?_, ?_⟩
          · simpa [lastDateScan, scanParts] using hyear
          · simpa [lastDateScan, scanParts] using hmonth
          · simpa [lastDateScan, scanParts] using hday
          · simpa [lastVolScan, scanParts] using hvol
          · rw [htitle]
          · simp [hbody]

/-! Lemmas about the batch loop and the summary extrema. -/

theorem processFiles_acc (dir : List Char)
    (convert : List Char → Except (List Char) (List Char)) :
    ∀ (files : List (List Char)) (d0 : List RawInfo)
      (e0 : List (List Char × List Char)),
      files.foldl
        (fun st fn =>
          match convert fn with
          | .ok text =>
            (st.1 ++ [extract_newspaper_info (dir ++ '/' :: fn) text], st.2)
          | .error e => (st.1, st.2 ++ [(fn, e)]))
        (d0, e0) =
      (d0 ++ (processFiles dir convert files).1,
       e0 ++ (processFiles dir convert files).2) := by
  intro files
  induction files with
  | nil =>
    intro d0 e0
    simp [processFiles]
  | cons fn files ih =>
    intro d0 e0
    rw [processFiles, List.foldl_cons, List.foldl_cons]
    cases hc : convert fn with
    | ok text =>
      simp only [hc, List.nil_append]
      rw [ih (d0 ++ [extract_newspaper_info (dir ++ '/' :: fn) text]) e0,
        ih [extract_newspaper_info (dir ++ '/' :: fn) text] []]
      simp
    | error e =>
      simp only [hc, List.nil_append]
      rw [ih d0 (e0 ++ [(fn, e)]), ih [] [(fn, e)]]
      simp

theorem processFiles_cons (dir : List Char)
    (convert : List Char → Except (List Char) (List Char))
    (fn : List Char) (files : List (List Char)) :
    processFiles dir convert (fn :: files) =
      match convert fn with
      | .ok text =>
        ([extract_newspaper_info (dir ++ '/' :: fn) text] ++
          (processFiles dir convert files).1,
         (processFiles dir convert files).2)
      | .error e =>
        ((processFiles dir convert files).1,
         [(fn, e)] ++ (processFiles dir convert files).2) := by
  rw [processFiles, List.foldl_cons]
  cases hc : convert fn with
  | ok text =>
    simp only [hc]
    rw [processFiles_acc]
    simp
  | error e =>
    simp only [hc]
    rw [processFiles_acc]
    simp

theorem processFiles_length (dir : List Char)
    (convert : List Char → Except (List Char) (List Char)) :
    ∀ files : List (List Char),
      (processFiles dir convert files).1.length +
        (processFiles dir convert files).2.length = files.length := by
  intro files
  induction files with
  | nil => rfl
  | cons fn files ih =>
    rw [processFiles_cons]
    cases hc : convert fn <;> simp [hc] <;> omega

theorem processFiles_append (dir : List Char)
    (convert : List Char → Except (List Char) (List Char))
    (l1 l2 : List (List Char)) :
    processFiles dir convert (l1 ++ l2) =
      ((processFiles dir convert l1).1 ++ (processFiles dir convert l2).1,
       (processFiles dir convert l1).2 ++ (processFiles dir convert l2).2) := by
  rw [processFiles, List.foldl_append]
  have h1 : l1.foldl _ ([], []) = processFiles dir convert l1 := rfl
  rw [h1, show processFiles dir convert l1 =
    ((processFiles dir convert l1).1, (processFiles dir convert l1).2) from rfl]
  exact processFiles_acc dir convert l2 _ _

theorem colMin_acc :
    ∀ (xs : List (Option Nat)) (a : Nat),
      xs.foldl
        (fun acc x =>
          match acc, x with
          | none, v => v
          | some m, none => some m
          | some m, some v => some (min m v))
        (some a) =
      match colMin xs with
      | none => some a
      | some k => some (min a k) := by
  intro xs
  induction xs with
  | nil => intro a; rfl
  | cons x xs ih =>
    intro a
    cases x with
    | none =>
      rw [List.foldl_cons]
      show xs.foldl _ (some a) = _
      rw [ih a]
      have h0 : colMin (none :: xs) = colMin xs := rfl
      rw [h0]
    | some v =>
      rw [List.foldl_cons]
      show xs.foldl _ (some (min a v)) = _
      rw [ih (min a v)]
      have h0 : colMin (some v :: xs) =
          (xs.foldl
            (fun acc x =>
              match acc, x with
              | none, v => v
              | some m, none => some m
              | some m, some v => some (min m v))
            (some v) : Option Nat) := rfl
      rw [h0, ih v]
      cases colMin xs with
      | none => rfl
      | some k =>
        simp only []
        rw [Nat.min_assoc]

theorem colMin_mem :
    ∀ {xs : List (Option Nat)} {m : Nat}, colMin xs = some m → some m ∈ xs := by
  intro xs
  induction xs with
  | nil => intro m h; cases h
  | cons x xs ih =>
    intro m h
    cases x with
    | none =>
      rw [colMin, List.foldl_cons] at h
      exact List.mem_cons_of_mem _ (ih h)
    | some v =>
      rw [colMin, List.foldl_cons] at h
      have h2 : (match colMin xs with
          | none => some v
          | some k => some (min v k)) = some m := by
        rw [← colMin_acc xs v]
        exact h
      cases hc : colMin xs with
      | none =>
        rw [hc] at h2
        cases h2
        simp
      | some k =>
        rw [hc] at h2
        simp only [Option.some.injEq] at h2
        rcases Nat.le_total v k with hle | hle
        · rw [Nat.min_eq_left hle] at h2
          subst h2
          simp
        · rw [Nat.min_eq_right hle] at h2
          subst h2
          exact List.mem_cons_of_mem _ (ih hc)

theorem colMin_none :
    ∀ {xs : List (Option Nat)}, colMin xs = none ↔ ∀ y ∈ xs, y = none := by
  intro xs
  induction xs with
  | nil => simp [colMin]
  | cons x xs ih =>
    cases x with
    | none =>
      rw [colMin, List.foldl_cons]
      show colMin xs = none ↔ _
      rw [ih]
      constructor
      · intro h y hy
        rcases List.mem_cons.1 hy with rfl | hy
        · rfl
        · exact h y hy
      · intro h y hy
        exact h y (List.mem_cons_of_mem _ hy)
    | some v =>
      rw [colMin, List.foldl_cons]
      show (xs.foldl _ (some v) : Option Nat) = none ↔ _
      rw [colMin_acc xs v]
      constructor
      · intro h
        cases hc : colMin xs <;> rw [hc] at h <;> cases h
      · intro h
        exact absurd (h (some v) (by simp)) (by simp)

theorem colMin_le :
    ∀ {xs : List (Option Nat)} {m : Nat}, colMin xs = some m →
      ∀ v : Nat, some v ∈ xs → m ≤ v := by
  intro xs
  induction xs with
  | nil => intro m h; cases h
  | cons x xs ih =>
    intro m h v hv
    cases x with
    | none =>
      rw [colMin, List.foldl_cons] at h
      rcases List.mem_cons.1 hv with heq | hv2
      · cases heq
      · exact ih h v hv2
    | some w =>
      rw [colMin, List.foldl_cons] at h
      have h2 : (match colMin xs with
          | none => some w
          | some k => some (min w k)) = some m := by
        rw [← colMin_acc xs w]
        exact h
      rcases List.mem_cons.1 hv with heq | hv2
      · have hw : w = v := by
          injection heq.symm
        subst hw
        cases hc : colMin xs with
        | none =>
          rw [hc] at h2
          cases h2
          exact le_refl _
        | some k =>
          rw [hc] at h2
          simp only [Option.some.injEq] at h2
          subst h2
          exact Nat.min_le_left _ _
      · cases hc : colMin xs with
        | none =>
          exact absurd (colMin_none.1 hc (some v) hv2) (by simp)
        | some k =>
          rw [hc] at h2
          simp only [Option.some.injEq] at h2
          subst h2
          exact le_trans (Nat.min_le_right _ _) (ih hc v hv2)

theorem colMax_acc :
    ∀ (xs : List (Option Nat)) (a : Nat),
      xs.foldl
        (fun acc x =>
          match acc, x with
          | none, v => v
          | some m, none => some m
          | some m, some v => some (max m v))
        (some a) =
      match colMax xs with
      | none => some a
      | some k => some (max a k) := by
  intro xs
  induction xs with
  | nil => intro a; rfl
  | cons x xs ih =>
    intro a
    cases x with
    | none =>
      rw [List.foldl_cons]
      show xs.foldl _ (some a) = _
      rw [ih a]
      have h0 : colMax (none :: xs) = colMax xs := rfl
      rw [h0]
    | some v =>
      rw [List.foldl_cons]
      show xs.foldl _ (some (max a v)) = _
      rw [ih (max a v)]
      have h0 : colMax (some v :: xs) =
          (xs.foldl
            (fun acc x =>
              match acc, x with
              | none, v => v
              | some m, none => some m
              | some m, some v => some (max m v))
            (some v) : Option Nat) := rfl
      rw [h0, ih v]
      cases colMax xs with
      | none => rfl
      | some k =>
        simp only []
        rw [Nat.max_assoc]

theorem colMax_mem :
    ∀ {xs : List (Option Nat)} {m : Nat}, colMax xs = some m → some m ∈ xs := by
  intro xs
  induction xs with
  | nil => intro m h; cases h
  | cons x xs ih =>
    intro m h
    cases x with
    | none =>
      rw [colMax, List.foldl_cons] at h
      exact List.mem_cons_of_mem _ (ih h)
    | some v =>
      rw [colMax, List.foldl_cons] at h
      have h2 : (match colMax xs with
          | none => some v
          | some k => some (max v k)) = some m := by
        rw [← colMax_acc xs v]
        exact h
      cases hc : colMax xs with
      | none =>
        rw [hc] at h2
        cases h2
        simp
      | some k =>
        rw [hc] at h2
        simp only [Option.some.injEq] at h2
        rcases Nat.le_total v k with hle | hle
        · rw [Nat.max_eq_right hle] at h2
          subst h2
          exact List.mem_cons_of_mem _ (ih hc)
        · rw [Nat.max_eq_left hle] at h2
          subst h2
          simp

theorem colMax_none :
    ∀ {xs : List (Option Nat)}, colMax xs = none ↔ ∀ y ∈ xs, y = none := by
  intro xs
  induction xs with
  | nil => simp [colMax]
  | cons x xs ih =>
    cases x with
    | none =>
      rw [colMax, List.foldl_cons]
      show colMax xs = none ↔ _
      rw [ih]
      constructor
      · intro h y hy
        rcases List.mem_cons.1 hy with rfl | hy
        · rfl
        · exact h y hy
      · intro h y hy
        exact h y (List.mem_cons_of_mem _ hy)
    | some v =>
      rw [colMax, List.foldl_cons]
      show (xs.foldl _ (some v) : Option Nat) = none ↔ _
      rw [colMax_acc xs v]
      constructor
      · intro h
        cases hc : colMax xs <;> rw [hc] at h <;> cases h
      · intro h
        exact absurd (h (some v) (by simp)) (by simp)

theorem colMax_ge :
    ∀ {xs : List (Option Nat)} {m : Nat}, colMax xs = some m →
      ∀ v : Nat, some v ∈ xs → v ≤ m := by
  intro xs
  induction xs with
  | nil => intro m h; cases h
  | cons x xs ih =>
    intro m h v hv
    cases x with
    | none =>
      rw [colMax, List.foldl_cons] at h
      rcases List.mem_cons.1 hv with heq | hv2
      · cases heq
      · exact ih h v hv2
    | some w =>
      rw [colMax, List.foldl_cons] at h
      have h2 : (match colMax xs with
          | none => some w
          | some k => some (max w k)) = some m := by
        rw [← colMax_acc xs w]
        exact h
      rcases List.mem_cons.1 hv with heq | hv2
      · have hw : w = v := by
          injection heq.symm
        subst hw
        cases hc : colMax xs with
        | none =>
          rw [hc] at h2
          cases h2
          exact le_refl _
        | some k =>
          rw [hc] at h2
          simp only [Option.some.injEq] at h2
          subst h2
          exact Nat.le_max_left _ _
      · cases hc : colMax xs with
        | none =>
          exact absurd (colMax_none.1 hc (some v) hv2) (by simp)
        | some k =>
          rw [hc] at h2
          simp only [Option.some.injEq] at h2
          subst h2
          exact le_trans (ih hc v hv2) (Nat.le_max_right _ _)

/-! Support for the publisher-presence analysis. -/

theorem charSplit_subset {sep : Char} {l : List Char} :
    ∀ {piece : List Char}, piece ∈ charSplit sep l → ∀ {c}, c ∈ piece → c ∈ l := by
  induction l with
  | nil =>
    intro piece hp c hc
    simp only [charSplit, List.mem_singleton] at hp
    subst hp
    cases hc
  | cons d rest ih =>
    intro piece hp c hc
    by_cases hd : d = sep
    · simp [charSplit, hd] at hp
      rcases hp with hp1 | hp2
      · subst hp1
        cases hc
      · exact List.mem_cons_of_mem _ (ih hp2 hc)
    · simp only [charSplit, hd, if_false] at hp
      generalize h3 : charSplit sep rest = cs at hp
      cases cs with
      | nil => exact absurd h3 (charSplit_ne_nil _ _)
      | cons g gs =>
        rcases List.mem_cons.1 hp with rfl | hp2
        · rcases List.mem_cons.1 hc with rfl | hc2
          · simp
          · exact List.mem_cons_of_mem _
              (ih (h3 ▸ List.mem_cons_self g gs) hc2)
        · exact List.mem_cons_of_mem _
            (ih (h3 ▸ List.mem_cons_of_mem g hp2) hc)

theorem charSplit_covers {sep : Char} {l : List Char} :
    ∀ {c : Char}, c ∈ l → c ≠ sep → ∃ piece ∈ charSplit sep l, c ∈ piece := by
  induction l with
  | nil =>
    intro c hc
    cases hc
  | cons d rest ih =>
    intro c hc hcs
    by_cases hd : d = sep
    · subst hd
      rcases List.mem_cons.1 hc with rfl | hc2
      · exact absurd rfl hcs
      · rcases ih hc2 hcs with ⟨piece, hp, hcp⟩
        refine ⟨piece, ?_, hcp⟩
        simp only [charSplit, if_true]
        exact List.mem_cons_of_mem _ hp
    · rcases List.mem_cons.1 hc with rfl | hc2
      · generalize h3 : charSplit sep rest = cs
        cases cs with
        | nil => exact absurd h3 (charSplit_ne_nil _ _)
        | cons g gs =>
          refine ⟨c :: g, ?_, by simp⟩
          simp only [charSplit, hd, if_false, h3]
          simp
      · rcases ih hc2 hcs with ⟨piece, hp, hcp⟩
        generalize h3 : charSplit sep rest = cs at hp
        cases cs with
        | nil => exact absurd h3 (charSplit_ne_nil _ _)
        | cons g gs =>
          rcases List.mem_cons.1 hp with rfl | hp2
          · refine ⟨d :: piece, ?_, List.mem_cons_of_mem _ hcp⟩
            simp only [charSplit, hd, if_false, h3]
            simp
          · refine ⟨piece, ?_, hcp⟩
            simp only [charSplit, hd, if_false, h3]
            exact List.mem_cons_of_mem _ hp2

theorem runSplitF_subset :
    ∀ (f : Nat) (l : List Char), l.length ≤ f →
      ∀ piece ∈ runSplitF f l, ∀ c ∈ piece, c ∈ l := by
  intro f
  induction f with
  | zero =>
    intro l hle piece hp c hc
    have h0 : l = [] := List.length_eq_zero.1 (Nat.le_zero.1 hle)
    subst h0
    simp only [runSplitF, List.mem_singleton] at hp
    subst hp
    cases hc
  | succ f ih =>
    intro l hle piece hp c hc
    cases l with
    | nil =>
      simp only [runSplitF, List.mem_singleton] at hp
      subst hp
      cases hc
    | cons d rest =>
      by_cases hd : slashSpace d = true
      · simp only [runSplitF, hd, if_true, List.mem_cons] at hp
        rcases hp with rfl | hp
        · cases hc
        · have hlen : (rest.dropWhile slashSpace).length ≤ f := by
            have := (@List.dropWhile_sublist _ rest slashSpace).length_le
            simp only [List.length_cons] at hle
            omega
          exact List.mem_cons_of_mem _
            ((List.dropWhile_sublist slashSpace).subset (ih _ hlen piece hp c hc))
      · simp only [runSplitF] at hp
        rw [if_neg hd] at hp
        have hlen : rest.length ≤ f := by
          simp only [List.length_cons] at hle
          omega
        cases hs : runSplitF f rest with
        | nil =>
          rw [hs] at hp
          simp only [List.mem_singleton] at hp
          subst hp
          rcases List.mem_singleton.1 hc with rfl
          simp
        | cons g gs =>
          rw [hs] at hp
          rcases List.mem_cons.1 hp with rfl | hp
          · rcases List.mem_cons.1 hc with rfl | hc2
            · simp
            · exact List.mem_cons_of_mem _
                (ih _ hlen g (hs ▸ List.mem_cons_self g gs) c hc2)
          · exact List.mem_cons_of_mem _
              (ih _ hlen piece (hs ▸ List.mem_cons_of_mem g hp) c hc)

theorem runSplitF_covers :
    ∀ (f : Nat) (l : List Char), l.length ≤ f →
      ∀ c ∈ l, slashSpace c = false → ∃ piece ∈ runSplitF f l, c ∈ piece := by
  intro f
  induction f with
  | zero =>
    intro l hle c hc _
    have h0 : l = [] := List.length_eq_zero.1 (Nat.le_zero.1 hle)
    subst h0
    cases hc
  | succ f ih =>
    intro l hle c hc hcs
    cases l with
    | nil => cases hc
    | cons d rest =>
      by_cases hd : slashSpace d = true
      · have hcd : c ≠ d := by
          intro he
          rw [he, hd] at hcs
          cases hcs
        have hcr : c ∈ rest := by
          rcases List.mem_cons.1 hc with rfl | h2
          · exact absurd rfl hcd
          · exact h2
        have hcdrop : c ∈ rest.dropWhile slashSpace := by
          have hsplit : rest = rest.takeWhile slashSpace ++
              rest.dropWhile slashSpace :=
            (List.takeWhile_append_dropWhile slashSpace rest).symm
          rw [hsplit] at hcr
          rcases List.mem_append.1 hcr with h1 | h1
          · exact absurd (List.mem_takeWhile_imp h1) (by rw [hcs]; simp)
          · exact h1
        have hlen : (rest.dropWhile slashSpace).length ≤ f := by
          have := (@List.dropWhile_sublist _ rest slashSpace).length_le
          simp only [List.length_cons] at hle
          omega
        rcases ih _ hlen c hcdrop hcs with ⟨piece, hp, hcp⟩
        refine ⟨piece, ?_, hcp⟩
        simp only [runSplitF, hd, if_true, List.mem_cons]
        exact Or.inr hp
      · have hlen : rest.length ≤ f := by
          simp only [List.length_cons] at hle
          omega
        rcases List.mem_cons.1 hc with rfl | hc2
        · cases hs : runSplitF f rest with
          | nil =>
            refine ⟨[c], ?_, by simp⟩
            simp only [runSplitF]
            rw [if_neg hd, hs]
            simp
          | cons g gs =>
            refine ⟨c :: g, ?_, by simp⟩
            simp only [runSplitF]
            rw [if_neg hd, hs]
            simp
        · rcases ih _ hlen c hc2 hcs with ⟨piece, hp, hcp⟩
          cases hs : runSplitF f rest with
          | nil => exact absurd (hs ▸ hp) (by simp)
          | cons g gs =>
            rw [hs] at hp
            rcases List.mem_cons.1 hp with rfl | hp2
            · refine ⟨d :: piece, ?_, List.mem_cons_of_mem _ hcp⟩
              simp only [runSplitF]
              rw [if_neg hd, hs]
              simp
            · refine ⟨piece, ?_, hcp⟩
              simp only [runSplitF]
              rw [if_neg hd, hs]
              exact List.mem_cons_of_mem _ hp2

theorem mem_of_mem_strip {c : Char} {l : List Char} (h : c ∈ strip l) : c ∈ l := by
  have h1 : c ∈ ldrop l := by
    have := (@List.dropWhile_sublist _ ((ldrop l).reverse) pySpace).subset
    rw [strip] at h
    rw [rdrop] at h
    have h2 : c ∈ ((ldrop l).reverse.dropWhile pySpace) := by
      simpa using h
    simpa using this h2
  exact (List.dropWhile_sublist pySpace).subset h1

theorem mem_strip_of_not_space {c : Char} {l : List Char}
    (hc : c ∈ l) (hs : pySpace c = false) : c ∈ strip l := by
  have h1 : c ∈ ldrop l := by
    have hsplit : l = l.takeWhile pySpace ++ ldrop l :=
      (List.takeWhile_append_dropWhile pySpace l).symm
    rw [hsplit] at hc
    rcases List.mem_append.1 hc with h2 | h2
    · exact absurd (List.mem_takeWhile_imp h2) (by rw [hs]; simp)
    · exact h2
  rw [strip, rdrop]
  have h2 : c ∈ (ldrop l).reverse := by simpa using h1
  have hsplit2 : (ldrop l).reverse = (ldrop l).reverse.takeWhile pySpace ++
      (ldrop l).reverse.dropWhile pySpace :=
    (List.takeWhile_append_dropWhile pySpace _).symm
  rw [hsplit2] at h2
  rcases List.mem_append.1 h2 with h3 | h3
  · exact absurd (List.mem_takeWhile_imp h3) (by rw [hs]; simp)
  · simpa using h3

theorem filter_head?_eq_find? (p : List Char → Bool) :
    ∀ l : List (List Char), (l.filter p).head? = l.find? p := by
  intro l
  induction l with
  | nil => rfl
  | cons x l ih =>
    rw [List.filter_cons, List.find?_cons]
    cases hp : p x with
    | true => simp
    | false => simpa using ih

/-- The header yields no part exactly when every character of the header is
whitespace or a slash. -/
theorem headerParts_eq_nil_iff {header : List Char} :
    headerParts header = [] ↔ ∀ c ∈ header, slashSpace c = true := by
  constructor
  · intro hnil c hc
    by_contra hcs
    have hcs2 : slashSpace c = false := by
      revert hcs; cases slashSpace c <;> simp
    rw [headerParts] at hnil
    by_cases hsl : header.contains '/' = true
    · rw [if_pos hsl] at hnil
      have hcslash : c ≠ '/' := by
        intro he
        rw [he] at hcs2
        simp [slashSpace] at hcs2
      rcases charSplit_covers hc hcslash with ⟨piece, hp, hcp⟩
      have hstrip : strip piece ≠ [] := by
        apply strip_ne_nil_of_not
        rw [not_allSpace_iff]
        intro hall
        have hps := hall c hcp
        have hcontra : slashSpace c = true := by simp [slashSpace, hps]
        rw [hcontra] at hcs2
        cases hcs2
      have hmem : strip piece ∈ ((charSplit '/' header).map strip).filter
          (fun p => p ≠ []) := by
        rw [List.mem_filter]
        exact ⟨List.mem_map_of_mem strip hp, by simpa using hstrip⟩
      rw [hnil] at hmem
      cases hmem
    · rw [if_neg hsl] at hnil
      rcases runSplitF_covers header.length header (le_refl _) c hc hcs2 with
        ⟨piece, hp, hcp⟩
      have hnospace : ∀ d ∈ piece, pySpace d = false := by
        intro d hd
        have := runSplitF_no_sep header.length header (le_refl _) piece hp d hd
        exact (by simpa [slashSpace] using this :
          ¬ d = '/' ∧ pySpace d = false).2
      have hstrip : strip piece = piece := strip_no_space hnospace
      have hne : strip piece ≠ [] := by
        rw [hstrip]
        intro he
        rw [he] at hcp
        cases hcp
      have hmem : strip piece ∈ ((runSplit header).map strip).filter
          (fun p => p ≠ []) := by
        rw [List.mem_filter]
        exact ⟨List.mem_map_of_mem strip hp, by simpa using hne⟩
      rw [hnil] at hmem
      cases hmem
  · intro hall
    rw [headerParts]
    by_cases hsl : header.contains '/' = true
    · rw [if_pos hsl]
      apply filter_ne_nil_all_nil
      intro p hp
      rcases List.mem_map.1 hp with ⟨piece, hpc, rfl⟩
      apply strip_all
      rw [allSpace_iff]
      intro c hc
      have hmem : c ∈ header := charSplit_subset hpc hc
      have hsep := hall c hmem
      have hslash : '/' ∉ piece := not_mem_of_mem_charSplit hpc
      have hcs : c ≠ '/' := fun he => hslash (he ▸ hc)
      revert hsep
      simp [slashSpace, hcs]
    · rw [if_neg hsl]
      apply filter_ne_nil_all_nil
      intro p hp
      rcases List.mem_map.1 hp with ⟨piece, hpc, rfl⟩
      cases hpn : piece with
      | nil => rfl
      | cons c cs =>
        exfalso
        have hc : c ∈ piece := by rw [hpn]; simp
        have hsep := hall c
          (runSplitF_subset header.length header (le_refl _) piece hpc c hc)
        have hnosep := runSplitF_no_sep header.length header (le_refl _)
          piece hpc c hc
        rw [hsep] at hnosep
        cases hnosep

theorem findSome?_some_mem {β : Type} {f : List Char → Option β}
    {l : List (List Char)} {v : β} (h : l.findSome? f = some v) :
    ∃ x ∈ l, f x = some v := by
  induction l with
  | nil => cases h
  | cons a l ih =>
    rw [List.findSome?_cons] at h
    cases hf : f a with
    | some b =>
      rw [hf] at h
      cases h
      exact ⟨a, by simp, hf⟩
    | none =>
      rw [hf] at h
      rcases ih h with ⟨x, hx, hfx⟩
      exact ⟨x, List.mem_cons_of_mem _ hx, hfx⟩

theorem strategyA_go_eq :
    ∀ ls : List (List Char),
      strategyA.go ls =
        match ls.findSome? strategyAMatch with
        | some (p, y, m, d, v) => (some p, some y, some m, some d, some v)
        | none => (none, none, none, none, none) := by
  intro ls
  induction ls with
  | nil => rfl
  | cons l ls ih =>
    rw [List.findSome?_cons]
    cases hm : strategyAMatch l with
    | some r =>
      rcases r with ⟨p, y, m, d, v⟩
      simp [strategyA.go, hm]
    | none =>
      simp [strategyA.go, hm, ih]

/-! Claim theorems. -/

/-- C1: for every raw text blob, the Parser splits it into paragraphs at
runs of one or more blank lines, trims each paragraph and discards empty
ones (`specParagraphs` is written from the spec's words; `pyParagraphs`
embeds the code's `re.split(r'\n\s*\n', ...)` pipeline); the header block
is the first paragraph, split into parts by `/` when a slash is present and
by whitespace/slash runs otherwise, empty parts dropped, and `publisher` is
the first such part. -/
theorem claim_C1 (pdf_path text : List Char) :
    pyParagraphs text = specParagraphs text ∧
    (extract_newspaper_info pdf_path text).publisher =
      (match specParagraphs text with
       | [] => none
       | p0 :: _ => (headerParts (strip p0)).head?) := by
  refine ⟨pyParagraphs_eq_specParagraphs text, ?_⟩
  rw [extract_shape]
  show (hpsOf text).head? = _
  unfold hpsOf
  rw [pyParagraphs_eq_specParagraphs text]
  generalize specParagraphs text = ps
  cases ps <;> rfl

/-- C2: a date field is populated exactly by the space-separated
sub-patterns, with the integer value of the matched digit run, and the
volume is the matched digit run kept as a string, the match being allowed
in any header part. -/
theorem claim_C2 (pdf_path text : List Char) :
    (∀ y, (extract_newspaper_info pdf_path text).year = some y →
      ∃ part ∈ hpsOf text, ∃ ds, numUnitSearch '年' part = some ds ∧
        y = digitsToNat ds) ∧
    ((∃ part ∈ hpsOf text, (numUnitSearch '年' part).isSome) →
      (extract_newspaper_info pdf_path text).year.isSome) ∧
    (∀ m, (extract_newspaper_info pdf_path text).month = some m →
      ∃ part ∈ hpsOf text, ∃ ds, numUnitSearch '月' part = some ds ∧
        m = digitsToNat ds) ∧
    ((∃ part ∈ hpsOf text, (numUnitSearch '月' part).isSome) →
      (extract_newspaper_info pdf_path text).month.isSome) ∧
    (∀ d, (extract_newspaper_info pdf_path text).day = some d →
      ∃ part ∈ hpsOf text, ∃ ds, numUnitSearch '日' part = some ds ∧
        d = digitsToNat ds) ∧
    ((∃ part ∈ hpsOf text, (numUnitSearch '日' part).isSome) →
      (extract_newspaper_info pdf_path text).day.isSome) ∧
    (∀ v, (extract_newspaper_info pdf_path text).volume = some v →
      ∃ part ∈ hpsOf text, volSearch part = some v) ∧
    ((∃ part ∈ hpsOf text, (volSearch part).isSome) →
      (extract_newspaper_info pdf_path text).volume.isSome) := by
  rw [extract_shape]
  refine ⟨?_, ?_, ?_, ?_, ?_, ?_, ?_, ?_⟩
  · intro y hy
    simp only [Option.map_eq_some'] at hy
    rcases hy with ⟨ds, hds, hval⟩
    rcases findSome?_some_mem hds with ⟨part, hmem, hp⟩
    exact ⟨part, List.mem_reverse.1 hmem, ds, hp, hval.symm⟩
  · rintro ⟨part, hmem, hsome⟩
    rcases Option.isSome_iff_exists.1 hsome with ⟨ds, hds⟩
    show ((lastDateScan '年' (hpsOf text)).map digitsToNat).isSome = true
    rw [Option.isSome_map']
    cases hfs : lastDateScan '年' (hpsOf text) with
    | some w => rfl
    | none =>
      exfalso
      rw [lastDateScan, List.findSome?_eq_none] at hfs
      exact absurd hds (by rw [hfs part (List.mem_reverse.2 hmem)]; simp)
  · intro m hm
    simp only [Option.map_eq_some'] at hm
    rcases hm with ⟨ds, hds, hval⟩
    rcases findSome?_some_mem hds with ⟨part, hmem, hp⟩
    exact ⟨part, List.mem_reverse.1 hmem, ds, hp, hval.symm⟩
  · rintro ⟨part, hmem, hsome⟩
    rcases Option.isSome_iff_exists.1 hsome with ⟨ds, hds⟩
    show ((lastDateScan '月' (hpsOf text)).map digitsToNat).isSome = true
    rw [Option.isSome_map']
    cases hfs : lastDateScan '月' (hpsOf text) with
    | some w => rfl
    | none =>
      exfalso
      rw [lastDateScan, List.findSome?_eq_none] at hfs
      exact absurd hds (by rw [hfs part (List.mem_reverse.2 hmem)]; simp)
  · intro d hd
    simp only [Option.map_eq_some'] at hd
    rcases hd with ⟨ds, hds, hval⟩
    rcases findSome?_some_mem hds with ⟨part, hmem, hp⟩
    exact ⟨part, List.mem_reverse.1 hmem, ds, hp, hval.symm⟩
  · rintro ⟨part, hmem, hsome⟩
    rcases Option.isSome_iff_exists.1 hsome with ⟨ds, hds⟩
    show ((lastDateScan '日' (hpsOf text)).map digitsToNat).isSome = true
    rw [Option.isSome_map']
    cases hfs : lastDateScan '日' (hpsOf text) with
    | some w => rfl
    | none =>
      exfalso
      rw [lastDateScan, List.findSome?_eq_none] at hfs
      exact absurd hds (by rw [hfs part (List.mem_reverse.2 hmem)]; simp)
  · intro v hv
    rcases findSome?_some_mem hv with ⟨part, hmem, hp⟩
    exact ⟨part, List.mem_reverse.1 hmem, hp⟩
  · rintro ⟨part, hmem, hsome⟩
    rcases Option.isSome_iff_exists.1 hsome with ⟨ds, hds⟩
    show (lastVolScan (hpsOf text)).isSome = true
    cases hfs : lastVolScan (hpsOf text) with
    | some w => rfl
    | none =>
      exfalso
      rw [lastVolScan, List.findSome?_eq_none] at hfs
      exact absurd hds (by rw [hfs part (List.mem_reverse.2 hmem)]; simp)

/-- Closed instance of C2 on a concrete header, with a leading zero kept in
the volume string. -/
theorem claim_C2_witness :
    (extract_newspaper_info "x.pdf".toList
        "报社/2023 年 5 月 1 日/第 07 版".toList).year = some 2023 ∧
    (∃ part ∈ hpsOf "报社/2023 年 5 月 1 日/第 07 版".toList,
      ∃ ds, numUnitSearch '年' part = some ds ∧ 2023 = digitsToNat ds) ∧
    (extract_newspaper_info "x.pdf".toList
        "报社/2023 年 5 月 1 日/第 07 版".toList).volume = some "07".toList ∧
    (∃ part ∈ hpsOf "报社/2023 年 5 月 1 日/第 07 版".toList,
      volSearch part = some "07".toList) := by
  refine ⟨by decide, ?_, by decide, ?_⟩
  · exact (claim_C2 "x.pdf".toList "报社/2023 年 5 月 1 日/第 07 版".toList).1
      2023 (by decide)
  · exact (claim_C2 "x.pdf".toList
      "报社/2023 年 5 月 1 日/第 07 版".toList).2.2.2.2.2.2.1
      "07".toList (by decide)

/-- C3: the title is the trimmed second paragraph when it exists; the body
is the newline-join of the paragraphs from the third onward when there are
at least three, and the full raw blob otherwise; on the spec's concrete
four-paragraph input all fields come out as stated. -/
theorem claim_C3 (pdf_path text : List Char) :
    (∀ p0 p1 rest, specParagraphs text = p0 :: p1 :: rest →
      (extract_newspaper_info pdf_path text).title = some (strip p1)) ∧
    (∀ p0 p1 p2 rest, specParagraphs text = p0 :: p1 :: p2 :: rest →
      (extract_newspaper_info pdf_path text).text =
        some (joinNL (p2 :: rest))) ∧
    ((specParagraphs text).length ≤ 2 →
      (extract_newspaper_info pdf_path text).text = some text) ∧
    extract_newspaper_info "dir/x.pdf".toList
        "报社/2023 年 5 月 1 日/第 3 版\n\nHeadline Text\n\nBody para one\n\nBody para two".toList =
      { filename := some "x.pdf".toList
        publisher := some "报社".toList
        year := some 2023, month := some 5, day := some 1
        volume := some "3".toList
        title := some "Headline Text".toList
        text := some "Body para one\nBody para two".toList } := by
  have hpy := pyParagraphs_eq_specParagraphs text
  refine ⟨?_, ?_, ?_, by decide⟩
  · intro p0 p1 rest hps
    rw [extract_shape]
    show titleOf text = _
    unfold titleOf
    rw [hpy, hps]
  · intro p0 p1 p2 rest hps
    rw [extract_shape]
    show some (bodyOf text) = _
    unfold bodyOf
    rw [hpy, hps]
  · intro hlen
    rw [extract_shape]
    show some (bodyOf text) = _
    unfold bodyOf
    rw [hpy]
    rcases hps : specParagraphs text with _ | ⟨p0, _ | ⟨p1, _ | ⟨p2, rest⟩⟩⟩
    · rfl
    · rfl
    · rfl
    · rw [hps] at hlen
      simp at hlen

/-- Closed instance of C3 at the spec's concrete input. -/
theorem claim_C3_witness :
    specParagraphs
        "报社/2023 年 5 月 1 日/第 3 版\n\nHeadline Text\n\nBody para one\n\nBody para two".toList =
      ["报社/2023 年 5 月 1 日/第 3 版".toList, "Headline Text".toList,
        "Body para one".toList, "Body para two".toList] ∧
    (extract_newspaper_info "dir/x.pdf".toList
        "报社/2023 年 5 月 1 日/第 3 版\n\nHeadline Text\n\nBody para one\n\nBody para two".toList).title =
      some (strip "Headline Text".toList) ∧
    (extract_newspaper_info "dir/x.pdf".toList
        "报社/2023 年 5 月 1 日/第 3 版\n\nHeadline Text\n\nBody para one\n\nBody para two".toList).text =
      some (joinNL ["Body para one".toList, "Body para two".toList]) := by
  refine ⟨by decide, ?_, ?_⟩
  · exact (claim_C3 "dir/x.pdf".toList _).1
      "报社/2023 年 5 月 1 日/第 3 版".toList "Headline Text".toList
      ["Body para one".toList, "Body para two".toList] (by decide)
  · exact (claim_C3 "dir/x.pdf".toList _).2.1
      "报社/2023 年 5 月 1 日/第 3 版".toList "Headline Text".toList
      "Body para one".toList ["Body para two".toList] (by decide)

/-- C4: per processed file exactly one record is appended; in every record
`filename` and `text` carry values (never the `None` marker), while each of
the six other fields can be absent — witnessed on the empty text, where all
six are `none` while `filename`/`text` are `some` — and can be present —
witnessed on the spec's example; absence (`none`) is distinguishable from
the empty string (`some []`). -/
theorem claim_C4 :
    (∀ pdf_path text : List Char,
      (extract_newspaper_info pdf_path text).filename =
        some (basename pdf_path) ∧
      (extract_newspaper_info pdf_path text).text = some (bodyOf text)) ∧
    (∀ (dir : List Char)
      (conv : List Char → Except (List Char) (List Char)) files fn text,
      conv fn = .ok text →
      (processFiles dir conv (fn :: files)).1 =
        extract_newspaper_info (dir ++ '/' :: fn) text ::
          (processFiles dir conv files).1) ∧
    (extract_newspaper_info "a.pdf".toList [] =
      { filename := some "a.pdf".toList, publisher := none, year := none,
        month := none, day := none, volume := none, title := none,
        text := some [] }) ∧
    ((extract_newspaper_info "dir/x.pdf".toList
        "报社/2023 年 5 月 1 日/第 3 版\n\nHeadline Text\n\nBody para one\n\nBody para two".toList).publisher
        = some "报社".toList) ∧
    ((none : Option (List Char)) ≠ some []) := by
  refine ⟨?_, ?_, by decide, by decide, by decide⟩
  · intro pdf_path text
    rw [extract_shape]
    exact ⟨rfl, rfl⟩
  · intro dir conv files fn text hok
    rw [processFiles_cons]
    simp [hok]

/-- Closed instance of C4's batch conjunct on a one-file batch. -/
theorem claim_C4_witness :
    (fun _ : List Char => (Except.ok "t".toList :
        Except (List Char) (List Char))) "f.pdf".toList = .ok "t".toList ∧
    (processFiles "d".toList
        (fun _ => (Except.ok "t".toList : Except (List Char) (List Char)))
        ["f.pdf".toList]).1 =
      extract_newspaper_info ("d".toList ++ '/' :: "f.pdf".toList)
          "t".toList ::
        (processFiles "d".toList
          (fun _ => (Except.ok "t".toList : Except (List Char) (List Char)))
          []).1 :=
  ⟨rfl, claim_C4.2.1 "d".toList _ [] "f.pdf".toList "t".toList rfl⟩

/-- C5: the Parser is a total function (it is a Lean function); a failed
sub-match for a field leaves exactly that field absent, and each field is a
function of its own sub-pattern alone, so one field's failure cannot
disturb the others. -/
theorem claim_C5 (pdf_path text : List Char) :
    ((extract_newspaper_info pdf_path text).year = none ↔
      ∀ part ∈ hpsOf text, numUnitSearch '年' part = none) ∧
    ((extract_newspaper_info pdf_path text).month = none ↔
      ∀ part ∈ hpsOf text, numUnitSearch '月' part = none) ∧
    ((extract_newspaper_info pdf_path text).day = none ↔
      ∀ part ∈ hpsOf text, numUnitSearch '日' part = none) ∧
    ((extract_newspaper_info pdf_path text).volume = none ↔
      ∀ part ∈ hpsOf text, volSearch part = none) ∧
    ((extract_newspaper_info pdf_path text).title = none ↔
      (pyParagraphs text).length ≤ 1) ∧
    ((extract_newspaper_info pdf_path text).year =
      (lastDateScan '年' (hpsOf text)).map digitsToNat) ∧
    ((extract_newspaper_info pdf_path text).month =
      (lastDateScan '月' (hpsOf text)).map digitsToNat) ∧
    ((extract_newspaper_info pdf_path text).day =
      (lastDateScan '日' (hpsOf text)).map digitsToNat) ∧
    ((extract_newspaper_info pdf_path text).volume =
      lastVolScan (hpsOf text)) ∧
    ((extract_newspaper_info pdf_path text).title = titleOf text) := by
  rw [extract_shape]
  refine ⟨?_, ?_, ?_, ?_, ?_, rfl, rfl, rfl, rfl, rfl⟩
  · show (lastDateScan '年' (hpsOf text)).map digitsToNat = none ↔ _
    rw [Option.map_eq_none', lastDateScan, List.findSome?_eq_none]
    constructor
    · intro h part hp
      exact h part (List.mem_reverse.2 hp)
    · intro h part hp
      exact h part (List.mem_reverse.1 hp)
  · show (lastDateScan '月' (hpsOf text)).map digitsToNat = none ↔ _
    rw [Option.map_eq_none', lastDateScan, List.findSome?_eq_none]
    constructor
    · intro h part hp
      exact h part (List.mem_reverse.2 hp)
    · intro h part hp
      exact h part (List.mem_reverse.1 hp)
  · show (lastDateScan '日' (hpsOf text)).map digitsToNat = none ↔ _
    rw [Option.map_eq_none', lastDateScan, List.findSome?_eq_none]
    constructor
    · intro h part hp
      exact h part (List.mem_reverse.2 hp)
    · intro h part hp
      exact h part (List.mem_reverse.1 hp)
  · show lastVolScan (hpsOf text) = none ↔ _
    rw [lastVolScan, List.findSome?_eq_none]
    constructor
    · intro h part hp
      exact h part (List.mem_reverse.2 hp)
    · intro h part hp
      exact h part (List.mem_reverse.1 hp)
  · show titleOf text = none ↔ _
    unfold titleOf
    rcases hps : pyParagraphs text with _ | ⟨p0, _ | ⟨p1, rest⟩⟩
    · simp
    · simp
    · simp

/-- C6: a file whose conversion throws contributes zero records and exactly
one `(filename, error)` pair, files before and after it are processed
unchanged, and the record count plus the error count always equals the
number of files. -/
theorem claim_C6 (dir : List Char)
    (conv : List Char → Except (List Char) (List Char)) :
    (∀ files, (processFiles dir conv files).1.length +
      (processFiles dir conv files).2.length = files.length) ∧
    (∀ pre f post e, conv f = .error e →
      processFiles dir conv (pre ++ f :: post) =
        ((processFiles dir conv pre).1 ++ (processFiles dir conv post).1,
         (processFiles dir conv pre).2 ++
           (f, e) :: (processFiles dir conv post).2)) := by
  refine ⟨processFiles_length dir conv, ?_⟩
  intro pre f post e herr
  rw [processFiles_append, processFiles_cons]
  simp [herr]

/-- Closed instance of C6 on a three-file batch whose middle file fails. -/
theorem claim_C6_witness :
    (fun fn : List Char =>
      if fn = "bad.pdf".toList then (Except.error "boom".toList :
        Except (List Char) (List Char))
      else .ok "A\n\nB".toList) "bad.pdf".toList = .error "boom".toList ∧
    processFiles "d".toList
        (fun fn : List Char =>
          if fn = "bad.pdf".toList then .error "boom".toList
          else .ok "A\n\nB".toList)
        (["a.pdf".toList] ++ "bad.pdf".toList :: ["c.pdf".toList]) =
      ((processFiles "d".toList
          (fun fn : List Char =>
            if fn = "bad.pdf".toList then .error "boom".toList
            else .ok "A\n\nB".toList) ["a.pdf".toList]).1 ++
        (processFiles "d".toList
          (fun fn : List Char =>
            if fn = "bad.pdf".toList then .error "boom".toList
            else .ok "A\n\nB".toList) ["c.pdf".toList]).1,
       (processFiles "d".toList
          (fun fn : List Char =>
            if fn = "bad.pdf".toList then .error "boom".toList
            else .ok "A\n\nB".toList) ["a.pdf".toList]).2 ++
         ("bad.pdf".toList, "boom".toList) ::
           (processFiles "d".toList
            (fun fn : List Char =>
              if fn = "bad.pdf".toList then .error "boom".toList
              else .ok "A\n\nB".toList) ["c.pdf".toList]).2) :=
  ⟨rfl,
    (claim_C6 "d".toList _).2 ["a.pdf".toList] "bad.pdf".toList
      ["c.pdf".toList] "boom".toList rfl⟩

/-- C7 fails on the code: on records dated (2020,12) and (2021,1) the
summary's lower endpoint is year-min 2020 paired with month-min 1, which is
not the minimum (2020,12) of the year-month pairs ordered as pairs. -/
theorem claim_C7_counterexample :
    datedPairs
        [extract_newspaper_info "a.pdf".toList "报/2020 年 12 月".toList,
         extract_newspaper_info "b.pdf".toList "报/2021 年 1 月".toList] =
      [(2020, 12), (2021, 1)] ∧
    pairMin (datedPairs
        [extract_newspaper_info "a.pdf".toList "报/2020 年 12 月".toList,
         extract_newspaper_info "b.pdf".toList "报/2021 年 1 月".toList]) =
      some (2020, 12) ∧
    (summaryDateRange
        [extract_newspaper_info "a.pdf".toList "报/2020 年 12 月".toList,
         extract_newspaper_info "b.pdf".toList "报/2021 年 1 月".toList]).1 =
      (some 2020, some 1) ∧
    (summaryDateRange
        [extract_newspaper_info "a.pdf".toList "报/2020 年 12 月".toList,
         extract_newspaper_info "b.pdf".toList "报/2021 年 1 月".toList]).1 ≠
      (some 2020, some 12) := by
  decide

/-- C7 amended: the summary's endpoints are the independent, column-wise
extrema of the year and month values (each attained and bounding its own
column, absent values skipped), not extrema of year-month pairs. -/
theorem claim_C7 (data : List RawInfo) :
    (∀ y, (summaryDateRange data).1.1 = some y →
      (some y ∈ data.map (fun r => r.year)) ∧
        ∀ v, some v ∈ data.map (fun r => r.year) → y ≤ v) ∧
    (∀ m, (summaryDateRange data).1.2 = some m →
      (some m ∈ data.map (fun r => r.month)) ∧
        ∀ v, some v ∈ data.map (fun r => r.month) → m ≤ v) ∧
    (∀ y, (summaryDateRange data).2.1 = some y →
      (some y ∈ data.map (fun r => r.year)) ∧
        ∀ v, some v ∈ data.map (fun r => r.year) → v ≤ y) ∧
    (∀ m, (summaryDateRange data).2.2 = some m →
      (some m ∈ data.map (fun r => r.month)) ∧
        ∀ v, some v ∈ data.map (fun r => r.month) → v ≤ m) := by
  refine ⟨?_, ?_, ?_, ?_⟩
  · intro y hy
    exact ⟨colMin_mem hy, fun v hv => colMin_le hy v hv⟩
  · intro m hm
    exact ⟨colMin_mem hm, fun v hv => colMin_le hm v hv⟩
  · intro y hy
    exact ⟨colMax_mem hy, fun v hv => colMax_ge hy v hv⟩
  · intro m hm
    exact ⟨colMax_mem hm, fun v hv => colMax_ge hm v hv⟩

/-- Closed instance of the amended C7 on the two dated records. -/
theorem claim_C7_witness :
    (summaryDateRange
        [extract_newspaper_info "a.pdf".toList "报/2020 年 12 月".toList,
         extract_newspaper_info "b.pdf".toList "报/2021 年 1 月".toList]).1.1 =
      some 2020 ∧
    some 2020 ∈
      ([extract_newspaper_info "a.pdf".toList "报/2020 年 12 月".toList,
        extract_newspaper_info "b.pdf".toList "报/2021 年 1 月".toList].map
        (fun r => r.year)) :=
  ⟨by decide,
    ((claim_C7
        [extract_newspaper_info "a.pdf".toList "报/2020 年 12 月".toList,
         extract_newspaper_info "b.pdf".toList "报/2021 年 1 月".toList]).1
      2020 (by decide)).1⟩

/-- C8 (Strategy A, modelled from the spec): the scan inspects only the
first 10 lines, the five fields come from the first matching line (the
scan stops there), and they all stay absent when no line among the first 10
matches. -/
theorem claim_C8 (text : List Char) :
    (strategyA text =
      match ((linesOf text).take 10).findSome? strategyAMatch with
      | some (p, y, m, d, v) => (some p, some y, some m, some d, some v)
      | none => (none, none, none, none, none)) ∧
    (((linesOf text).take 10).findSome? strategyAMatch = none →
      strategyA text = (none, none, none, none, none)) := by
  have h := strategyA_go_eq ((linesOf text).take 10)
  refine ⟨h, ?_⟩
  intro hn
  rw [show strategyA text = strategyA.go ((linesOf text).take 10) from rfl,
    h, hn]

/-- Closed instance of C8: no header line within the first 10 lines leaves
all five fields absent; a matching second line populates them. -/
theorem claim_C8_witness :
    ((linesOf "hello\nworld".toList).take 10).findSome? strategyAMatch =
      none ∧
    strategyA "hello\nworld".toList = (none, none, none, none, none) ∧
    strategyA "noise\n报社/2023年5月1日/第3版\nrest".toList =
      (some "报社".toList, some 2023, some 5, some 1, some "3".toList) :=
  ⟨by decide, (claim_C8 "hello\nworld".toList).2 (by decide), by decide⟩

/-- C9: when the same sub-pattern matches in several header parts, the
value kept is the one of the last matching part — earlier matches are
silently overwritten, nothing is reported — and within one part the
leftmost occurrence is taken (witnessed by the part `"5 年 7 年"`). -/
theorem claim_C9 (pdf_path text : List Char) (xs : List (List Char))
    (p : List Char) (ys : List (List Char))
    (hdecomp : hpsOf text = xs ++ p :: ys) :
    ((∀ q ∈ ys, numUnitSearch '年' q = none) →
      ∀ ds, numUnitSearch '年' p = some ds →
        (extract_newspaper_info pdf_path text).year =
          some (digitsToNat ds)) ∧
    ((∀ q ∈ ys, numUnitSearch '月' q = none) →
      ∀ ds, numUnitSearch '月' p = some ds →
        (extract_newspaper_info pdf_path text).month =
          some (digitsToNat ds)) ∧
    ((∀ q ∈ ys, numUnitSearch '日' q = none) →
      ∀ ds, numUnitSearch '日' p = some ds →
        (extract_newspaper_info pdf_path text).day =
          some (digitsToNat ds)) ∧
    ((∀ q ∈ ys, volSearch q = none) →
      ∀ ds, volSearch p = some ds →
        (extract_newspaper_info pdf_path text).volume = some ds) ∧
    numUnitSearch '年' "5 年 7 年".toList = some "5".toList := by
  have key : ∀ {β : Type} (f : List Char → Option β),
      (∀ q ∈ ys, f q = none) → ∀ v, f p = some v →
        (hpsOf text).reverse.findSome? f = some v := by
    intro β f hys v hp2
    rw [hdecomp, List.reverse_append, List.reverse_cons,
      List.findSome?_append, List.findSome?_append]
    have hysr : ys.reverse.findSome? f = none :=
      List.findSome?_eq_none.2 (fun q hq => hys q (List.mem_reverse.1 hq))
    rw [hysr]
    simp [List.findSome?_cons, hp2]
  rw [extract_shape]
  refine ⟨?_, ?_, ?_, ?_, by decide⟩
  · intro hys ds hp2
    show (lastDateScan '年' (hpsOf text)).map digitsToNat = _
    rw [lastDateScan, key _ hys ds hp2]
    rfl
  · intro hys ds hp2
    show (lastDateScan '月' (hpsOf text)).map digitsToNat = _
    rw [lastDateScan, key _ hys ds hp2]
    rfl
  · intro hys ds hp2
    show (lastDateScan '日' (hpsOf text)).map digitsToNat = _
    rw [lastDateScan, key _ hys ds hp2]
    rfl
  · intro hys ds hp2
    show lastVolScan (hpsOf text) = _
    rw [lastVolScan, key _ hys ds hp2]

/-- Closed instance of C9: the year matched in the last of two matching
parts wins. -/
theorem claim_C9_witness :
    hpsOf "报/2020 年/2021 年".toList =
      ["报".toList, "2020 年".toList] ++ "2021 年".toList :: [] ∧
    numUnitSearch '年' "2021 年".toList = some "2021".toList ∧
    (extract_newspaper_info "x.pdf".toList
        "报/2020 年/2021 年".toList).year = some (digitsToNat "2021".toList) :=
  ⟨by decide, by decide,
    (claim_C9 "x.pdf".toList "报/2020 年/2021 年".toList
        ["报".toList, "2020 年".toList] "2021 年".toList [] (by decide)).1
      (by decide) "2021".toList (by decide)⟩

/-- C10 fails on the code: the text `"///"` has a non-whitespace character
yet yields no publisher, and for the header `"a b/c"` the publisher is the
whole slash part `"a b"`, not the first whitespace/slash-delimited token
`"a"`. -/
theorem claim_C10_counterexample :
    ('/' ∈ "///".toList ∧ pySpace '/' = false ∧
      (extract_newspaper_info "x.pdf".toList "///".toList).publisher =
        none) ∧
    ((extract_newspaper_info "y.pdf".toList "a b/c".toList).publisher =
        some "a b".toList ∧
      ((runSplit "a b/c".toList).filter (fun p => p ≠ [])).head? =
        some "a".toList ∧
      some "a b".toList ≠ some "a".toList) := by
  decide

/-- C10 amended: the publisher is present exactly when the first paragraph
(after trimming) contains a character that is neither whitespace nor a
slash; when the header contains a slash the publisher is the first
slash-delimited part that is non-empty after trimming (trimmed, possibly
with inner whitespace), otherwise the first maximal run of
non-slash-non-whitespace characters. -/
theorem claim_C10 (pdf_path text : List Char) :
    (pyParagraphs text = [] →
      (extract_newspaper_info pdf_path text).publisher = none) ∧
    (∀ p0 ptail, pyParagraphs text = p0 :: ptail →
      (((extract_newspaper_info pdf_path text).publisher ≠ none) ↔
        ∃ c ∈ strip p0, slashSpace c = false) ∧
      ((strip p0).contains '/' = true →
        (extract_newspaper_info pdf_path text).publisher =
          ((charSplit '/' (strip p0)).map strip).find?
            (fun x => x ≠ [])) ∧
      ((strip p0).contains '/' = false →
        (extract_newspaper_info pdf_path text).publisher =
          (runSplit (strip p0)).find? (fun x => x ≠ []))) := by
  rw [extract_shape]
  constructor
  · intro hps
    show (hpsOf text).head? = none
    unfold hpsOf
    rw [hps]
    rfl
  · intro p0 ptail hps
    have hhps : hpsOf text = headerParts (strip p0) := by
      unfold hpsOf
      rw [hps]
    refine ⟨?_, ?_, ?_⟩
    · show (hpsOf text).head? ≠ none ↔ _
      rw [hhps]
      constructor
      · intro hne
        by_contra hnex
        have hall : ∀ c ∈ strip p0, slashSpace c = true := by
          intro c hc
          by_contra hcf
          exact hnex ⟨c, hc, by revert hcf; cases slashSpace c <;> simp⟩
        rw [headerParts_eq_nil_iff.2 hall] at hne
        exact hne rfl
      · rintro ⟨c, hc, hcs⟩ hnone
        have hnil : headerParts (strip p0) = [] := by
          cases hH : headerParts (strip p0) with
          | nil => rfl
          | cons a l =>
            rw [hH] at hnone
            cases hnone
        have := headerParts_eq_nil_iff.1 hnil c hc
        rw [this] at hcs
        cases hcs
    · intro hsl
      show (hpsOf text).head? = _
      rw [hhps, headerParts, if_pos hsl, filter_head?_eq_find?]
    · intro hsl
      show (hpsOf text).head? = _
      rw [hhps, headerParts_no_slash hsl, filter_head?_eq_find?]

/-- Closed instance of the amended C10 on the header `"a b/c"`. -/
theorem claim_C10_witness :
    pyParagraphs "a b/c".toList = ["a b/c".toList] ∧
    (strip "a b/c".toList).contains '/' = true ∧
    (extract_newspaper_info "y.pdf".toList "a b/c".toList).publisher =
      ((charSplit '/' (strip "a b/c".toList)).map strip).find?
        (fun x => x ≠ []) :=
  ⟨by decide, by decide,
    ((claim_C10 "y.pdf".toList "a b/c".toList).2 "a b/c".toList []
      (by decide)).2.1 (by decide)⟩


/-- Closed instance of C5 on a header that has a volume but no date: the
date fields are absent, the volume field is still populated. -/
theorem claim_C5_witness :
    (extract_newspaper_info "x.pdf".toList "报/第 3 版".toList).year =
      none ∧
    (∀ part ∈ hpsOf "报/第 3 版".toList,
      numUnitSearch '年' part = none) ∧
    (extract_newspaper_info "x.pdf".toList "报/第 3 版".toList).volume =
      lastVolScan (hpsOf "报/第 3 版".toList) ∧
    (extract_newspaper_info "x.pdf".toList "报/第 3 版".toList).volume =
      some "3".toList :=
  ⟨by decide,
    (claim_C5 "x.pdf".toList "报/第 3 版".toList).1.mp (by decide),
    (claim_C5 "x.pdf".toList "报/第 3 版".toList).2.2.2.2.2.2.2.2.1,
    by decide⟩
